import Mathlib

/-!
# mcfg2rpm: a shallow embedding of `cmd/mcfg2rpm/main.go`

The program reads a MachineConfig document, converts its embedded Ignition
payload into a list of files, writes them under a temporary staging directory,
describes the staged tree as an nfpm package manifest and emits an RPM.

The embedding is state passing.  A `World` holds the filesystem and a trace of
the calls made to the operating system and to the external collaborators.  The
collaborators that live outside the repository (YAML decoding, MachineConfig
validation, Ignition conversion, data-URL decoding, nfpm validation and
packaging) are fields of an environment `Env`, together with what the operating
system chooses (the temporary directory and the random digits of a fresh name).
The path functions of Go's `path/filepath` and the file operations of `os` /
`io/ioutil` are modelled for Unix after the Go standard library.  Calls to
`klog.Infof` only log and are left out.
-/

namespace Mcfg2rpm

/-! ## Strings, errors -/

/-- Go strings and byte slices: sequences of byte-sized characters. -/
abbrev Str := List Char

/-- Go `error` values, identified by their message. -/
abbrev Err := String

/-! ## `path/filepath` (Unix) -/

/-- `os.IsPathSeparator` on Unix. -/
def isSep (c : Char) : Bool := c == '/'

/-- The `lazybuf` of `filepath.Clean`: `out` is the written part `buf[0:w]`
(so `w = out.length`), `dotdot` the index where `..` must stop. -/
structure lazybuf where
  out : Str
  dotdot : Nat
deriving DecidableEq, Repr

/-- `lazybuf.append`. -/
def pushByte (b : lazybuf) (c : Char) : lazybuf := { b with out := b.out ++ [c] }

/-- The inner loop of the `..` case,
`for out.w > dotdot && !os.IsPathSeparator(out.index(out.w)) { out.w-- }`,
started at index `w`; returns the final `w`. -/
def backLoop (out : Str) (dotdot : Nat) : Nat → Nat
  | 0 => 0
  | w + 1 =>
      if dotdot < w + 1 && !isSep (out.getD (w + 1) '/') then backLoop out dotdot w else w + 1

/-- The `..` case of `filepath.Clean`: backtrack over the last element when
`out.w > dotdot`; otherwise, when the path is not rooted, append a `..` element
and move `dotdot`; otherwise (rooted, at the root) do nothing. -/
def dotdotElem (rooted : Bool) (b : lazybuf) : lazybuf :=
  if b.dotdot < b.out.length then
    { b with out := b.out.take (backLoop b.out b.dotdot (b.out.length - 1)) }
  else if !rooted then
    let o := (if 0 < b.out.length then b.out ++ ['/'] else b.out) ++ ['.', '.']
    { out := o, dotdot := o.length }
  else b

/-- The guard `if rooted && out.w != 1 || !rooted && out.w != 0 { out.append(Separator) }`
that precedes the copy of a real path element. -/
def sepIfNeeded (rooted : Bool) (b : lazybuf) : lazybuf :=
  if (rooted && b.out.length != 1) || (!rooted && b.out.length != 0) then pushByte b '/'
  else b

/-- The lookahead `r+k == n || os.IsPathSeparator(path[r+k])` on the rest of the input. -/
def endsElem (t : Str) : Bool :=
  match t with
  | [] => true
  | c :: _ => isSep c

/-- The main loop `for r < n { switch ... }` of `filepath.Clean` over the unread
input `path[r:]`.  The flag is `true` while the loop is inside the copy loop of the
default case (`for ; r < n && !os.IsPathSeparator(path[r]); r++ { out.append(path[r]) }`);
a separator met there ends the copy and is then skipped by the outer loop's first case.
With the flag `false` the cases are, in order: empty element (separator), `.` element,
`..` element, real element (separator if needed, then the first byte is copied). -/
def cleanLoop (rooted : Bool) : Str → Bool → lazybuf → lazybuf
  | [], _, b => b
  | c :: t, true, b =>
      if isSep c then cleanLoop rooted t false b
      else cleanLoop rooted t true (pushByte b c)
  | [c], false, b =>
      if isSep c then b
      else if c == '.' then b
      else pushByte (sepIfNeeded rooted b) c
  | c :: c2 :: t2, false, b =>
      if isSep c then cleanLoop rooted (c2 :: t2) false b
      else if c == '.' && isSep c2 then cleanLoop rooted (c2 :: t2) false b
      else if c == '.' && c2 == '.' && endsElem t2 then
        cleanLoop rooted t2 false (dotdotElem rooted b)
      else cleanLoop rooted (c2 :: t2) true (pushByte (sepIfNeeded rooted b) c)

/-- Go's `filepath.Clean` on Unix (no volume name, `FromSlash` is the identity):
the empty path becomes `.`, a rooted path starts the buffer with the separator
and reads from index 1, and an empty result becomes `.`. -/
def Clean (path : Str) : Str :=
  match path with
  | [] => ['.']
  | c :: t =>
      let b := if isSep c then cleanLoop true t false ⟨['/'], 1⟩
               else cleanLoop false (c :: t) false ⟨[], 0⟩
      if b.out.length = 0 then ['.'] else b.out

/-- Go's `filepath.Join` on Unix: leading empty elements are dropped, the rest is
joined with the separator and cleaned; all elements empty gives the empty string. -/
def Join : List Str → Str
  | [] => []
  | e :: es => if e = [] then Join es else Clean (List.intercalate ['/'] (e :: es))

/-- Go's `filepath.Dir` on Unix: drop the last element (everything after the final
separator) and clean what remains. -/
def Dir (path : Str) : Str :=
  Clean (path.reverse.dropWhile (fun c => !isSep c)).reverse

/-- The path elements of a string: the pieces between separators. -/
def elems : Str → List Str
  | [] => [[]]
  | c :: t =>
      if isSep c then [] :: elems t
      else
        match elems t with
        | [] => [[c]]
        | e :: es => (c :: e) :: es

/-- Whether a path has a `..` element. -/
def hasDotDot (p : Str) : Bool := (elems p).contains ['.', '.']

/-- Lexical containment: `q` is `d` itself or starts with `d` followed by a separator. -/
def rootedUnder (d q : Str) : Prop := q = d ∨ (d ++ ['/']) <+: q

instance (d q : Str) : Decidable (rootedUnder d q) := by
  unfold rootedUnder; exact inferInstance

/-! ## The filesystem -/

/-- A filesystem node with its permission bits; the bits are those requested at
creation (Go documents `perm` as "before umask"). -/
inductive Node where
  | dir (mode : Nat)
  | file (mode : Nat) (data : Str)
deriving DecidableEq, Repr

/-- The filesystem: an association list from cleaned path to node, first match wins. -/
abbrev FS := List (Str × Node)

/-- The node at a path. -/
def FS.lookup (fs : FS) (p : Str) : Option Node :=
  match fs with
  | [] => none
  | (q, n) :: rest => if q = p then some n else FS.lookup rest p

/-- Create or replace the node at a path. -/
def FS.put (fs : FS) (p : Str) (n : Node) : FS := (p, n) :: fs

/-- Drop every entry whose path satisfies the test. -/
def FS.dropWhere (fs : FS) (t : Str → Bool) : FS := fs.filter (fun e => !t e.1)

/-- Index where the last element of a path starts, as `os.MkdirAll` computes it:
skip trailing separators, then scan backward over the element. -/
def elemStart (path : Str) : Nat :=
  ((path.reverse.dropWhile isSep).dropWhile (fun c => !isSep c)).length

/-- The directory a path is resolved in: `path[:j-1]` for `j = elemStart path > 1`,
the root when the last element hangs off the root, the working directory otherwise. -/
def parentDir (path : Str) : Str :=
  if 1 < elemStart path then path.take (elemStart path - 1)
  else if elemStart path = 1 then ['/'] else ['.']

/-- The `errno` messages the filesystem operations fail with. -/
def ENOENT : Err := "no such file or directory"
def ENOTDIR : Err := "not a directory"
def EEXIST : Err := "file exists"
def EISDIR : Err := "is a directory"
def ENOTEMPTY : Err := "directory not empty"

/-- The `mkdir` system call behind `os.Mkdir`. -/
def Mkdir (path : Str) (perm : Nat) (fs : FS) : FS × Option Err :=
  if path = [] then (fs, some ENOENT)
  else
    match fs.lookup path with
    | some _ => (fs, some EEXIST)
    | none =>
        match fs.lookup (parentDir path) with
        | none => (fs, some ENOENT)
        | some (.file _ _) => (fs, some ENOTDIR)
        | some (.dir _) => (fs.put path (.dir perm), none)

/-- The body of Go's `os.MkdirAll`, with the recursion on the parent bounded by a
budget: fast path on `Stat` (a directory: nothing to do; a file: `ENOTDIR`), otherwise
create the parent `path[:j-1]` when `j > 1`, then `Mkdir`, double-checking with `Lstat`
when `Mkdir` fails.  Directories made on the way stay when a later step fails. -/
def mkdirAllAux : Nat → Str → Nat → FS → FS × Option Err
  | 0, _, _, fs => (fs, some "mkdirall: recursion budget exhausted")
  | fuel + 1, path, perm, fs =>
      match fs.lookup path with
      | some (.dir _) => (fs, none)
      | some (.file _ _) => (fs, some ENOTDIR)
      | none =>
          let r := if 1 < elemStart path then
                     mkdirAllAux fuel (path.take (elemStart path - 1)) perm fs
                   else (fs, none)
          match r with
          | (fs1, some e) => (fs1, some e)
          | (fs1, none) =>
              match Mkdir path perm fs1 with
              | (fs2, none) => (fs2, none)
              | (fs2, some e) =>
                  match fs2.lookup path with
                  | some (.dir _) => (fs2, none)
                  | _ => (fs2, some e)

/-- Opening with `O_CREATE|O_TRUNC` and writing `data`, as `ioutil.WriteFile` and
`os.Create` do.  Go documents it so: "If the file does not exist, WriteFile creates it
with permissions perm (before umask); otherwise WriteFile truncates it before writing,
without changing permissions."  A missing file needs an existing parent directory. -/
def openTruncWrite (name : Str) (data : Str) (perm : Nat) (fs : FS) : FS × Option Err :=
  if name = [] then (fs, some ENOENT)
  else
    match fs.lookup name with
    | some (.dir _) => (fs, some EISDIR)
    | some (.file m _) => (fs.put name (.file m data), none)
    | none =>
        match fs.lookup (parentDir name) with
        | none => (fs, some ENOENT)
        | some (.file _ _) => (fs, some ENOTDIR)
        | some (.dir _) => (fs.put name (.file perm data), none)

/-- Whether `q` lies strictly below directory `p`. -/
def below (p q : Str) : Bool := (p ++ ['/']).isPrefixOf q && q != p ++ ['/']

/-! ## The world: filesystem plus trace -/

/-- Calls observed on the operating system and on the collaborators. -/
inductive Event where
  | readFile (name : Str)
  | unmarshal (data : Str)
  | validateMachineConfig
  | parseAndConvert (raw : Str)
  | decodeString (src : Str)
  | mkdirAll (path : Str) (perm : Nat)
  | writeFile (name : Str) (data : Str) (perm : Nat)
  | tempDir (name : Str)
  | create (name : Str)
  | package (target : Str)
  | remove (name : Str)
  | close (name : Str)
  | removeAll (path : Str)
deriving DecidableEq, Repr

structure World where
  fs : FS
  trace : List Event
deriving DecidableEq, Repr

/-- Record a call. -/
def World.log (σ : World) (e : Event) : World := { σ with trace := σ.trace ++ [e] }

/-- Go's `os.MkdirAll(path, perm)`. -/
def MkdirAll (path : Str) (perm : Nat) (σ : World) : World × Option Err :=
  let r := mkdirAllAux (path.length + 1) path perm σ.fs
  ({ fs := r.1, trace := σ.trace ++ [.mkdirAll path perm] }, r.2)

/-- Go's `ioutil.WriteFile(name, data, perm)`. -/
def WriteFile (name : Str) (data : Str) (perm : Nat) (σ : World) : World × Option Err :=
  let r := openTruncWrite name data perm σ.fs
  ({ fs := r.1, trace := σ.trace ++ [.writeFile name data perm] }, r.2)

/-- Go's `ioutil.ReadFile(name)`. -/
def ReadFile (name : Str) (σ : World) : World × Except Err Str :=
  (σ.log (.readFile name),
    match σ.fs.lookup name with
    | some (.file _ data) => .ok data
    | some (.dir _) => .error EISDIR
    | none => .error ENOENT)

/-- Go's `os.Create(name)`: `OpenFile(name, O_RDWR|O_CREATE|O_TRUNC, 0666)`. -/
def Create (name : Str) (σ : World) : World × Option Err :=
  let r := openTruncWrite name [] 0o666 σ.fs
  ({ fs := r.1, trace := σ.trace ++ [.create name] }, r.2)

/-- Go's `os.RemoveAll(path)`: the path and everything below it is gone afterwards. -/
def RemoveAll (path : Str) (σ : World) : World :=
  { fs := σ.fs.dropWhere (fun q => q = path || below path q),
    trace := σ.trace ++ [.removeAll path] }

/-! ## Data model -/

/-- The `ign3types.File` fields the program reads: `Node.Path` and
`FileEmbedded1.Contents.Source` (a `*string`). -/
structure Resource where
  Source : Option Str
deriving DecidableEq, Repr

structure File where
  Path : Str
  Contents : Resource
deriving DecidableEq, Repr

structure Storage where
  Files : List File
deriving DecidableEq, Repr

/-- The `ign3types.Config`, reduced to `Storage.Files`; `Config{}` has no files. -/
structure Config where
  Storage : Storage
deriving DecidableEq, Repr

structure RawExtension where
  Raw : Str
deriving DecidableEq, Repr

structure MachineConfigSpec where
  OSImageURL : Str
  Config : RawExtension
  KernelArguments : List Str
  Extensions : List Str
  FIPS : Bool
  KernelType : Str
deriving DecidableEq, Repr

structure ObjectMeta where
  Name : Str
deriving DecidableEq, Repr

structure MachineConfig where
  ObjectMeta : ObjectMeta
  Spec : MachineConfigSpec
deriving DecidableEq, Repr

/-- The wrapper `wrappedMachineConfig`: the embedded document and the cached
conversion (`ign3 *ign3types.Config`, `nil` when absent). -/
structure wrappedMachineConfig where
  MachineConfig : MachineConfig
  ign3 : Option Config
deriving DecidableEq, Repr

/-- The value of `dataurl.DataURL` the program reads. -/
structure DataURL where
  Data : Str
deriving DecidableEq, Repr

/-- An entry of `nfpmFiles.Contents`. -/
structure Content where
  Source : Str
  Destination : Str
deriving DecidableEq, Repr

structure Overridables where
  Provides : List Str
  Depends : List Str
  Replaces : List Str
  Recommends : List Str
  Suggests : List Str
  Conflicts : List Str
  Contents : List Content
deriving DecidableEq, Repr

/-- The `nfpm.Info`: identity fields, the embedded `Overridables` and the `Target`. -/
structure Info where
  Overridables : Overridables
  Name : Str
  Arch : Str
  Platform : Str
  Version : Str
  Section : Str
  Target : Str
deriving DecidableEq, Repr

structure NfpmConfig where
  Info : Info
deriving DecidableEq, Repr

/-- An `nfpm.Packager`: the file-name convention and the archive writer.  The writer
reads the filesystem and yields the bytes that reached the output file together with
its error, if any. -/
structure Packager where
  ConventionalFileName : Info → Str
  Package : Info → FS → Str × Option Err

/-- The collaborators outside the repository, and the choices of the operating system. -/
structure Env where
  /-- `yaml.Unmarshal` into a `MachineConfig`. -/
  Unmarshal : Str → Except Err MachineConfig
  /-- `ctrlcommon.ValidateMachineConfig`, applied to the `Spec`. -/
  ValidateMachineConfig : MachineConfigSpec → Option Err
  /-- `ctrlcommon.ParseAndConvertConfig`. -/
  ParseAndConvertConfig : Str → Except Err Config
  /-- `dataurl.DecodeString`. -/
  DecodeString : Str → Except Err DataURL
  /-- `nfpm.Config.Validate`, taken as a check of the assembled manifest. -/
  Validate : NfpmConfig → Option Err
  /-- `nfpm.Config.Get(format)`. -/
  ConfGet : NfpmConfig → Str → Except Err Info
  /-- `nfpm.Validate(info)`. -/
  NfpmValidate : Info → Option Err
  /-- `nfpm.Get(format)`, the packager registry. -/
  NfpmGet : Str → Except Err Packager
  /-- `os.TempDir()`, the directory `ioutil.TempDir` creates its directory in when it
  is given the empty string. -/
  tempRoot : Str
  /-- The decimal digits of `nextRandom()` on the attempt of `ioutil.TempDir` that
  finds a free name. -/
  tempRandom : List (Fin 10)
  /-- Failures of `os.Remove` that the filesystem contents do not explain (permissions). -/
  removeFault : Str → Option Err

/-- The decimal digit `d` as a byte. -/
def digitByte (d : Fin 10) : Char := Char.ofNat (48 + d.val)

/-- The name `ioutil.TempDir("", "mcfg2rpm")` tries:
`filepath.Join(dir, prefix+nextRandom()+suffix)` with `dir = os.TempDir()`, the prefix
`mcfg2rpm` and no suffix. -/
def Env.tempName (env : Env) : Str :=
  Join [env.tempRoot, "mcfg2rpm".toList ++ env.tempRandom.map digitByte]

/-- Go's `ioutil.TempDir("", "mcfg2rpm")`: `os.Mkdir(name, 0700)` of the name tried;
the retries on a name collision are folded into the choice of `tempRandom`. -/
def TempDir (env : Env) (σ : World) : World × Except Err Str :=
  match Mkdir env.tempName 0o700 σ.fs with
  | (fs1, none) => ({ fs := fs1, trace := σ.trace ++ [.tempDir env.tempName] }, .ok env.tempName)
  | (fs1, some e) => ({ fs := fs1, trace := σ.trace ++ [.tempDir env.tempName] }, .error e)

/-- Go's `os.Remove(name)`: unlink a file, or remove an empty directory. -/
def Remove (env : Env) (name : Str) (σ : World) : World × Option Err :=
  let σ1 := σ.log (.remove name)
  match env.removeFault name with
  | some e => (σ1, some e)
  | none =>
      match σ.fs.lookup name with
      | none => (σ1, some ENOENT)
      | some (.file _ _) => ({ σ1 with fs := σ.fs.dropWhere (fun q => q = name) }, none)
      | some (.dir _) =>
          if σ.fs.any (fun e => below name e.1 && (σ.fs.lookup e.1).isSome) then
            (σ1, some ENOTEMPTY)
          else ({ σ1 with fs := σ.fs.dropWhere (fun q => q = name) }, none)

/-! ## The program -/

/-- `(*wrappedMachineConfig).GetIgnitionConfig`: return the cached conversion when
present; otherwise convert `Spec.Config.Raw`, and cache the result only when the
conversion succeeds. -/
def GetIgnitionConfig (env : Env) (w : wrappedMachineConfig) (σ : World) :
    wrappedMachineConfig × World × Except Err Config :=
  match w.ign3 with
  | some c => (w, σ, .ok c)
  | none =>
      let σ1 := σ.log (.parseAndConvert w.MachineConfig.Spec.Config.Raw)
      match env.ParseAndConvertConfig w.MachineConfig.Spec.Config.Raw with
      | .error e => (w, σ1, .error e)
      | .ok ign3 => ({ w with ign3 := some ign3 }, σ1, .ok ign3)

/-- `writeIgnFileToDisk`: join, `MkdirAll` of the directory part with 0755, decode the
source when there is one (`contents` starts as the zero `DataURL`), then `WriteFile`
with 0755. -/
def writeIgnFileToDisk (env : Env) (dirName : Str) (file : File) (σ : World) :
    World × Option Err :=
  let fullPath := Join [dirName, file.Path]
  match MkdirAll (Dir fullPath) 0o755 σ with
  | (σ1, some e) => (σ1, some e)
  | (σ1, none) =>
      match file.Contents.Source with
      | none => WriteFile fullPath (DataURL.mk []).Data 0o755 σ1
      | some src =>
          match env.DecodeString src with
          | .error e => (σ1.log (.decodeString src), some e)
          | .ok contents => WriteFile fullPath contents.Data 0o755 (σ1.log (.decodeString src))

/-- The loop `for _, file := range ign3.Storage.Files` of `WriteIgnition`. -/
def writeFiles (env : Env) (dirName : Str) : List File → World → World × Option Err
  | [], σ => (σ, none)
  | file :: rest, σ =>
      match writeIgnFileToDisk env dirName file σ with
      | (σ1, some e) => (σ1, some e)
      | (σ1, none) => writeFiles env dirName rest σ1

/-- `(*wrappedMachineConfig).WriteIgnition`. -/
def WriteIgnition (env : Env) (w : wrappedMachineConfig) (dirName : Str) (σ : World) :
    wrappedMachineConfig × World × Option Err :=
  match GetIgnitionConfig env w σ with
  | (w1, σ1, .error e) => (w1, σ1, some e)
  | (w1, σ1, .ok ign3) =>
      let r := writeFiles env dirName ign3.Storage.Files σ1
      (w1, r.1, r.2)

/-- The manifest `conf` as first assembled in `GetNFPMConfig`, before the content map. -/
def baseConfig (w : wrappedMachineConfig) : NfpmConfig :=
  { Info :=
      { Name := w.MachineConfig.ObjectMeta.Name
        Arch := "amd64".toList
        Platform := "linux".toList
        Version := "v1.0.0".toList
        Section := "default".toList
        Target := []
        Overridables :=
          { Provides := ["bar".toList]
            Depends := ["foo".toList, "bar".toList]
            Replaces := ["foobar".toList]
            Recommends := ["whatever".toList]
            Suggests := ["something-else".toList]
            Conflicts := ["not-foo".toList, "not-bar".toList]
            Contents := [] } } }

/-- The loop of `GetNFPMConfig` that appends one `Content` per Ignition file. -/
def appendContents (dirName : Str) : List File → List Content → List Content
  | [], contents => contents
  | ignFile :: rest, contents =>
      appendContents dirName rest
        (contents ++ [{ Source := Join [dirName, ignFile.Path], Destination := ignFile.Path }])

/-- `(*wrappedMachineConfig).GetNFPMConfig`. -/
def GetNFPMConfig (env : Env) (w : wrappedMachineConfig) (dirName : Str) (σ : World) :
    wrappedMachineConfig × World × NfpmConfig × Option Err :=
  let conf := baseConfig w
  match GetIgnitionConfig env w σ with
  | (w1, σ1, .error e) => (w1, σ1, conf, some e)
  | (w1, σ1, .ok ign3) =>
      let contents := appendContents dirName ign3.Storage.Files []
      let conf1 : NfpmConfig :=
        { conf with Info := { conf.Info with
            Overridables := { conf.Info.Overridables with Contents := contents } } }
      (w1, σ1, conf1, env.Validate conf1)

/-- `readMachineConfig`.  `wmc` starts as the zero value; what a failing
`yaml.Unmarshal` may have filled in is not kept, `main` drops the wrapper on error. -/
def readMachineConfig (env : Env) (filename : Str) (σ : World) :
    wrappedMachineConfig × World × Option Err :=
  let wmc : wrappedMachineConfig :=
    { MachineConfig :=
        { ObjectMeta := { Name := [] }
          Spec := { OSImageURL := [], Config := { Raw := [] }, KernelArguments := [],
                    Extensions := [], FIPS := false, KernelType := [] } }
      ign3 := none }
  match ReadFile filename σ with
  | (σ1, .error e) => (wmc, σ1, some e)
  | (σ1, .ok inBytes) =>
      let σ2 := σ1.log (.unmarshal inBytes)
      match env.Unmarshal inBytes with
      | .error e => (wmc, σ2, some e)
      | .ok mc =>
          let wmc1 := { wmc with MachineConfig := mc }
          let σ3 := σ2.log .validateMachineConfig
          match env.ValidateMachineConfig wmc1.MachineConfig.Spec with
          | some e => (wmc1, σ3, some e)
          | none => (wmc1, σ3, none)

/-- `toRPM`.  The bytes the packager wrote reach the created file whether or not it
fails; the result of `os.Remove` is dropped; the deferred `pkgFile.Close()` runs when
the function returns after a successful `os.Create`. -/
def toRPM (env : Env) (conf : NfpmConfig) (σ : World) : World × Option Err :=
  match env.ConfGet conf "rpm".toList with
  | .error e => (σ, some e)
  | .ok info =>
      match env.NfpmValidate info with
      | some e => (σ, some e)
      | none =>
          match env.NfpmGet "rpm".toList with
          | .error e => (σ, some e)
          | .ok pkger =>
              let target := pkger.ConventionalFileName info
              match Create target σ with
              | (σ1, some e) => (σ1, some e)
              | (σ1, none) =>
                  let info1 := { info with Target := target }
                  let r := pkger.Package info1 σ1.fs
                  let σ2 : World :=
                    { fs := (openTruncWrite target r.1 0o666 σ1.fs).1
                      trace := σ1.trace ++ [.package target] }
                  match r.2 with
                  | some e => (((Remove env target σ2).1).log (.close target), some e)
                  | none => (σ2.log (.close target), none)

/-- How the process ends: `klog.Exit` calls `os.Exit(1)` at once, deferred functions
are not run; a return from `main` ends the process with status 0; indexing
`os.Args[1]` out of range panics. -/
inductive Outcome where
  | exited (code : Nat) (msg : Err)
  | returned
  | panicked
deriving DecidableEq, Repr

/-- `main`, from the check of `os.Args` on.  The deferred `os.RemoveAll(tempDir)`
runs only on the path that returns. -/
def main (env : Env) (args : List Str) (σ : World) : World × Outcome :=
  if args.length = 1 then (σ, .exited 1 "no input file provided")
  else
    match args.get? 1 with
    | none => (σ, .panicked)
    | some filename =>
        match readMachineConfig env filename σ with
        | (_, σ1, some e) => (σ1, .exited 1 e)
        | (wmc, σ1, none) =>
            match TempDir env σ1 with
            | (σ2, .error e) => (σ2, .exited 1 e)
            | (σ2, .ok tempDir) =>
                match WriteIgnition env wmc tempDir σ2 with
                | (_, σ3, some e) => (σ3, .exited 1 e)
                | (wmc1, σ3, none) =>
                    match GetNFPMConfig env wmc1 tempDir σ3 with
                    | (_, σ4, _, some e) => (σ4, .exited 1 e)
                    | (_, σ4, nfpmConfig, none) =>
                        match toRPM env nfpmConfig σ4 with
                        | (σ5, some e) => (σ5, .exited 1 e)
                        | (σ5, none) => (RemoveAll tempDir σ5, .returned)

/-! ## Concrete inputs used to instantiate the statements -/

def demoPackager (fail : Option Err) : Packager :=
  { ConventionalFileName := fun info => info.Name ++ ".rpm".toList
    Package := fun _ _ => ("RPM".toList, fail) }

def demoDoc (name : Str) : MachineConfig :=
  { ObjectMeta := { Name := name }
    Spec := { OSImageURL := [], Config := { Raw := "ign".toList }, KernelArguments := [],
              Extensions := [], FIPS := false, KernelType := [] } }

def demoDecode (s : Str) : Except Err DataURL :=
  if "data:,".toList.isPrefixOf s then .ok ⟨s.drop 6⟩ else .error "missing data prefix"

/-- An environment whose document has the given name, whose conversion yields the
given files (or fails when `files` is `none`), and whose packager and `os.Remove`
fail as requested. -/
def demoEnv (name : Str) (files : Option (List File)) (pkgFail rmFail : Option Err) : Env :=
  { Unmarshal := fun _ => .ok (demoDoc name)
    ValidateMachineConfig := fun _ => none
    ParseAndConvertConfig := fun _ =>
      match files with
      | some fs => .ok ⟨⟨fs⟩⟩
      | none => .error "unsupported ignition version"
    DecodeString := demoDecode
    Validate := fun c => if c.Info.Name = [] then some "name empty" else none
    ConfGet := fun c _ => .ok c.Info
    NfpmValidate := fun _ => none
    NfpmGet := fun f =>
      if f = "rpm".toList then .ok (demoPackager pkgFail) else .error "no packager"
    tempRoot := "/tmp".toList
    tempRandom := [1]
    removeFault := fun _ => rmFail }

def demoWorld : World :=
  { fs := [("/".toList, .dir 0o755), ("/tmp".toList, .dir 0o777), (".".toList, .dir 0o755),
           ("mc.yaml".toList, .file 0o644 "doc".toList)]
    trace := [] }

def demoArgs : List Str := ["mcfg2rpm".toList, "mc.yaml".toList]

def fooConf : File := { Path := "/etc/foo.conf".toList, Contents := ⟨some "data:,hello".toList⟩ }
def badFile : File := { Path := "/etc/bad".toList, Contents := ⟨some "hello".toList⟩ }
def emptyFile : File := { Path := "a/b/c/file".toList, Contents := ⟨none⟩ }
def escaping : File := { Path := "../etc/passwd".toList, Contents := ⟨none⟩ }

def demoWrapped (name : Str) : wrappedMachineConfig :=
  { MachineConfig := demoDoc name, ign3 := none }

/-- Number of calls to `ctrlcommon.ParseAndConvertConfig` in a trace. -/
def parseCalls (tr : List Event) : Nat :=
  tr.countP (fun e => match e with
    | .parseAndConvert _ => true
    | _ => false)

/-- The demo environment with a validator that rejects every `Spec`. -/
def rejectingEnv (name : Str) : Env :=
  { demoEnv name (some [fooConf]) none none with
    ValidateMachineConfig := fun _ => some "spec rejected" }

/-- The entries of a list are materialized one after the other, each without error,
taking the world from the first state to the second. -/
inductive Materialized (env : Env) (dirName : Str) : List File → World → World → Prop where
  | nil (σ : World) : Materialized env dirName [] σ σ
  | cons {file : File} {rest : List File} {σ σ1 σ2 : World} :
      writeIgnFileToDisk env dirName file σ = (σ1, none) →
      Materialized env dirName rest σ1 σ2 →
      Materialized env dirName (file :: rest) σ σ2

/-- The buffer is past the point where a real element is written without a leading
separator. -/
def grown (rooted : Bool) (b : lazybuf) : Prop :=
  if rooted then 2 ≤ b.out.length else 1 ≤ b.out.length

/-- Every node that has a parent path (`path[:j-1]` with `j > 1`) sits in a directory. -/
def WellFormed (fs : FS) : Prop :=
  ∀ p n, fs.lookup p = some n → 1 < elemStart p →
    ∃ m, fs.lookup (p.take (elemStart p - 1)) = some (.dir m)

/-- The chain that `os.MkdirAll` walks: a path, its parent `path[:j-1]` while `j > 1`,
and so on upward. -/
inductive Ancestor : Str → Str → Prop where
  | self (p : Str) : Ancestor p p
  | up {a p : Str} : 1 < elemStart p → Ancestor a (p.take (elemStart p - 1)) → Ancestor a p

/-- A world where the staged file already exists with other permission bits. -/
def staleWorld : World :=
  { fs := [("/tmp/s/a/b/c/file".toList, .file 0o644 "old".toList),
           ("/tmp/s/a/b/c".toList, .dir 0o755), ("/tmp/s/a/b".toList, .dir 0o755),
           ("/tmp/s/a".toList, .dir 0o755), ("/tmp/s".toList, .dir 0o700),
           ("/tmp".toList, .dir 0o777), ("/".toList, .dir 0o755)]
    trace := [] }

def nestedFile : File := { Path := "a/b/c/file".toList, Contents := ⟨some "data:,hello".toList⟩ }

/-- The bytes an entry decodes to: none when the source is absent, the data of
`dataurl.DecodeString` otherwise. -/
def decodesTo (env : Env) (file : File) (data : Str) : Prop :=
  (file.Contents.Source = none ∧ data = []) ∨
    ∃ src, file.Contents.Source = some src ∧ env.DecodeString src = .ok ⟨data⟩

/-- An entry has been materialized in world `σ` since the trace stood at `before`: among
the calls made since then is the `WriteFile` of its decoded bytes to the joined path with
mode 0755, and a file sits at that path. -/
def staged (env : Env) (dirName : Str) (before : List Event) (σ : World) (file : File) :
    Prop :=
  (∃ data new, decodesTo env file data ∧ σ.trace = before ++ new ∧
      Event.writeFile (Join [dirName, file.Path]) data 0o755 ∈ new) ∧
    ∃ m d, σ.fs.lookup (Join [dirName, file.Path]) = some (.file m d)

/-- A path element that `filepath.Clean` copies: not empty, free of separators, and
neither `.` nor `..`. -/
def normalElem (e : Str) : Prop :=
  e ≠ [] ∧ (∀ c ∈ e, isSep c = false) ∧ e ≠ ['.'] ∧ e ≠ ['.', '.']

/-- The buffer after a real element has been written: separator if needed, then the
element. -/
def pushElem (rooted : Bool) (b : lazybuf) (e : Str) : lazybuf :=
  { out := (sepIfNeeded rooted b).out ++ e, dotdot := b.dotdot }

/-- The buffer of a path that is not rooted after `k` leading `..` elements. -/
def dotdots : Nat → lazybuf
  | 0 => ⟨[], 0⟩
  | k + 1 => dotdotElem false (dotdots k)

/-- The buffer before any real element is written. -/
def baseBuf (rooted : Bool) (k : Nat) : lazybuf :=
  if rooted then ⟨['/'], 1⟩ else dotdots k

/-- The buffers `filepath.Clean` can hold between two elements: leading `..` elements
(none when rooted) followed by real elements. -/
def Tidy (rooted : Bool) (b : lazybuf) : Prop :=
  ∃ (k : Nat) (es : List Str),
    (∀ e ∈ es, normalElem e) ∧ b = es.foldl (pushElem rooted) (baseBuf rooted k)

/-! ## Filesystem lemmas -/

theorem lookup_put (fs : FS) (p q : Str) (n : Node) :
    (fs.put p n).lookup q = if p = q then some n else fs.lookup q := by
  simp [FS.put, FS.lookup]

theorem lookup_dropWhere (fs : FS) (t : Str → Bool) (q : Str) :
    (fs.dropWhere t).lookup q = if t q then none else fs.lookup q := by
  induction fs with
  | nil => simp [FS.dropWhere, FS.lookup]
  | cons e rest ih =>
    obtain ⟨p, n⟩ := e
    simp only [FS.dropWhere] at ih ⊢
    by_cases hp : t p
    · simp only [List.filter, hp, Bool.not_true]
      rw [ih]
      by_cases hq : t q
      · simp [hq]
      · have : p ≠ q := by rintro rfl; exact hq hp
        simp [hq, FS.lookup, this]
    · simp only [List.filter, hp, Bool.not_false]
      by_cases hpq : p = q
      · subst hpq; simp [FS.lookup, hp]
      · simp only [FS.lookup, hpq, if_false]; exact ih

/-! ## Path cleaning -/

/-- The model of `filepath.Clean` agrees with the table of Go's own `TestClean`. -/
theorem Clean_go_table :
    Clean "".toList = ".".toList ∧ Clean "abc".toList = "abc".toList ∧
    Clean "..".toList = "..".toList ∧ Clean "../../abc".toList = "../../abc".toList ∧
    Clean "/".toList = "/".toList ∧ Clean "abc/def/".toList = "abc/def".toList ∧
    Clean "./".toList = ".".toList ∧ Clean "../../".toList = "../..".toList ∧
    Clean "abc//def//ghi".toList = "abc/def/ghi".toList ∧
    Clean "///abc".toList = "/abc".toList ∧ Clean "//abc//".toList = "/abc".toList ∧
    Clean "abc/./def".toList = "abc/def".toList ∧
    Clean "/./abc/def".toList = "/abc/def".toList ∧ Clean "abc/.".toList = "abc".toList ∧
    Clean "abc/def/ghi/../jkl".toList = "abc/def/jkl".toList ∧
    Clean "abc/def/../ghi/../jkl".toList = "abc/jkl".toList ∧
    Clean "abc/def/../..".toList = ".".toList ∧
    Clean "/abc/def/../..".toList = "/".toList ∧
    Clean "abc/def/../../..".toList = "..".toList ∧
    Clean "/abc/def/../../..".toList = "/".toList ∧
    Clean "abc/def/../../../ghi/jkl/../../../mno".toList = "../../mno".toList ∧
    Clean "/../abc".toList = "/abc".toList ∧
    Clean "abc/./../def".toList = "def".toList ∧
    Clean "abc//./../def".toList = "def".toList ∧
    Clean "abc/../../././../def".toList = "../../def".toList := by
  decide

/-- The model of `filepath.Dir` and `filepath.Join` on rows of Go's `TestDir` and
`TestJoin`. -/
theorem Dir_Join_go_table :
    Dir "".toList = ".".toList ∧ Dir ".".toList = ".".toList ∧ Dir "/.".toList = "/".toList ∧
    Dir "/".toList = "/".toList ∧ Dir "/foo".toList = "/".toList ∧
    Dir "x/".toList = "x".toList ∧ Dir "abc".toList = ".".toList ∧
    Dir "abc/def".toList = "abc".toList ∧ Dir "a/b/.x".toList = "a/b".toList ∧
    Join [] = [] ∧ Join ["".toList] = [] ∧ Join ["/".toList] = "/".toList ∧
    Join ["a".toList] = "a".toList ∧ Join ["a".toList, "b".toList] = "a/b".toList ∧
    Join ["a".toList, "".toList] = "a".toList ∧ Join ["".toList, "b".toList] = "b".toList ∧
    Join ["/".toList, "a".toList] = "/a".toList ∧ Join ["/".toList, "".toList] = "/".toList ∧
    Join ["a/".toList, "b".toList] = "a/b".toList ∧ Join ["a/".toList, "".toList] = "a".toList ∧
    Join ["".toList, "".toList] = [] ∧
    Join ["/".toList, "a".toList, "b".toList] = "/a/b".toList := by
  decide

theorem isSep_iff (c : Char) : isSep c = true ↔ c = '/' := by
  simp [isSep]

theorem cleanLoop_copy (rooted : Bool) (c : Char) (t : Str) (b : lazybuf) :
    cleanLoop rooted (c :: t) true b =
      if isSep c then cleanLoop rooted t false b
      else cleanLoop rooted t true (pushByte b c) := by
  rw [cleanLoop]

theorem cleanLoop_one (rooted : Bool) (c : Char) (b : lazybuf) :
    cleanLoop rooted [c] false b =
      if isSep c then b
      else if c == '.' then b
      else pushByte (sepIfNeeded rooted b) c := by
  rw [cleanLoop]

theorem cleanLoop_two (rooted : Bool) (c c2 : Char) (t2 : Str) (b : lazybuf) :
    cleanLoop rooted (c :: c2 :: t2) false b =
      if isSep c then cleanLoop rooted (c2 :: t2) false b
      else if c == '.' && isSep c2 then cleanLoop rooted (c2 :: t2) false b
      else if c == '.' && c2 == '.' && endsElem t2 then
        cleanLoop rooted t2 false (dotdotElem rooted b)
      else cleanLoop rooted (c2 :: t2) true (pushByte (sepIfNeeded rooted b) c) := by
  conv_lhs => rw [cleanLoop]

theorem cleanLoop_sep_cons (rooted : Bool) (rest : Str) (m : Bool) (b : lazybuf) :
    cleanLoop rooted ('/' :: rest) m b = cleanLoop rooted rest false b := by
  cases m with
  | true => simp [cleanLoop, isSep]
  | false =>
    cases rest with
    | nil => simp [cleanLoop, isSep]
    | cons c2 t2 => simp [cleanLoop, isSep]

theorem endsElem_append_sep (t rest : Str) : endsElem (t ++ '/' :: rest) = endsElem t := by
  cases t with
  | nil => simp [endsElem, isSep]
  | cons c t => simp [endsElem]

/-- Reading `xs`, a separator and then `rest` is reading `xs` and then `rest`: the
lookahead of the loop treats the end of the input like a separator. -/
theorem cleanLoop_append_sep (rooted : Bool) (n : Nat) :
    ∀ (xs : Str), xs.length ≤ n → ∀ (m : Bool) (b : lazybuf) (rest : Str),
      cleanLoop rooted (xs ++ '/' :: rest) m b
        = cleanLoop rooted rest false (cleanLoop rooted xs m b) := by
  induction n with
  | zero =>
    intro xs hxs m b rest
    have : xs = [] := List.eq_nil_of_length_eq_zero (Nat.le_zero.mp hxs)
    subst this
    simp [cleanLoop_sep_cons, cleanLoop]
  | succ n ih =>
    intro xs hxs m b rest
    cases xs with
    | nil => simp [cleanLoop_sep_cons, cleanLoop]
    | cons c t =>
      have ht : t.length ≤ n := by simpa using hxs
      cases m with
      | true =>
        simp only [List.cons_append, cleanLoop_copy]
        split
        · exact ih t ht false b rest
        · exact ih t ht true _ rest
      | false =>
        cases t with
        | nil =>
          simp only [List.cons_append, List.nil_append, cleanLoop_two, cleanLoop_one,
            cleanLoop_sep_cons]
          by_cases h1 : isSep c = true
          · simp [h1]
          · by_cases h2 : c = '.'
            · subst h2; simp [isSep]
            · simp [h1, h2]
        | cons c2 t2 =>
          have ht2 : t2.length ≤ n := by
            simp only [List.length_cons] at ht
            omega
          simp only [List.cons_append, cleanLoop_two, endsElem_append_sep]
          have e1 := ih (c2 :: t2) ht
          simp only [List.cons_append] at e1
          split
          · exact e1 false b rest
          · split
            · exact e1 false b rest
            · split
              · exact ih t2 ht2 false _ rest
              · exact e1 true _ rest

theorem elems_sep (c : Char) (t : Str) (h : isSep c = true) :
    elems (c :: t) = [] :: elems t := by
  simp [elems, h]

theorem elems_nonsep (c : Char) (t : Str) (h : isSep c = false) :
    ∃ e es, elems t = e :: es ∧ elems (c :: t) = (c :: e) :: es := by
  have hne : ∀ (s : Str), elems s ≠ [] := by
    intro s
    cases s with
    | nil => simp [elems]
    | cons a s =>
      simp only [elems]
      split
      · simp
      · split <;> simp
  cases he : elems t with
  | nil => exact absurd he (hne t)
  | cons e es => exact ⟨e, es, rfl, by simp [elems, h, he]⟩

theorem sepIfNeeded_grown (rooted : Bool) (b : lazybuf) (h : grown rooted b) :
    sepIfNeeded rooted b = pushByte b '/' := by
  unfold grown at h
  unfold sepIfNeeded
  cases rooted with
  | true =>
    simp only [if_true] at h
    have : b.out.length ≠ 1 := by omega
    simp [this]
  | false =>
    simp only [Bool.false_eq_true, if_false] at h
    have : b.out.length ≠ 0 := by omega
    simp [this]

theorem grown_pushByte (rooted : Bool) (b : lazybuf) (c : Char) (h : grown rooted b) :
    grown rooted (pushByte b c) := by
  unfold grown at h ⊢
  cases rooted with
  | true => simp [pushByte] at h ⊢; omega
  | false => simp [pushByte] at h ⊢

/-- Without `..` elements ahead the loop only appends: the buffer it returns extends the
one it started from, and what a fresh element adds begins with a separator. -/
theorem cleanLoop_grows (rooted : Bool) (n : Nat) :
    ∀ (p : Str), p.length ≤ n → ∀ (m : Bool) (b : lazybuf), grown rooted b →
      (m = false → ['.', '.'] ∉ elems p) → (m = true → ['.', '.'] ∉ (elems p).tail) →
      ∃ s, (cleanLoop rooted p m b).out = b.out ++ s ∧
        (m = false → s = [] ∨ ∃ s1, s = '/' :: s1) := by
  induction n with
  | zero =>
    intro p hp m b _ _ _
    have : p = [] := List.eq_nil_of_length_eq_zero (Nat.le_zero.mp hp)
    subst this
    exact ⟨[], by simp [cleanLoop], fun _ => Or.inl rfl⟩
  | succ n ih =>
    intro p hp m b hb hf ht
    cases p with
    | nil => exact ⟨[], by simp [cleanLoop], fun _ => Or.inl rfl⟩
    | cons c t =>
      have hlt : t.length ≤ n := by simpa using hp
      cases m with
      | true =>
        have ht1 := ht rfl
        simp only [cleanLoop_copy]
        by_cases hc : isSep c = true
        · simp only [hc, if_true]
          rw [elems_sep c t hc] at ht1
          obtain ⟨s, hs, -⟩ := ih t hlt false b hb (fun _ => by simpa using ht1) (by simp)
          exact ⟨s, hs, by simp⟩
        · have hc1 : isSep c = false := by simpa using hc
          simp only [hc1, Bool.false_eq_true, if_false]
          obtain ⟨e, es, he, hce⟩ := elems_nonsep c t hc1
          rw [hce] at ht1
          obtain ⟨s, hs, -⟩ := ih t hlt true (pushByte b c) (grown_pushByte _ _ _ hb)
            (by simp) (fun _ => by rw [he]; simpa using ht1)
          exact ⟨c :: s, by rw [hs]; simp [pushByte], by simp⟩
      | false =>
        have hf1 := hf rfl
        cases t with
        | nil =>
          simp only [cleanLoop_one]
          by_cases hc : isSep c = true
          · exact ⟨[], by simp [hc], fun _ => Or.inl rfl⟩
          · by_cases h2 : (c == '.') = true
            · exact ⟨[], by simp [hc, h2], fun _ => Or.inl rfl⟩
            · refine ⟨['/', c], ?_, fun _ => Or.inr ⟨[c], rfl⟩⟩
              simp [hc, h2, sepIfNeeded_grown rooted b hb, pushByte]
        | cons c2 t2 =>
          have hlt2 : t2.length ≤ n := by
            simp only [List.length_cons] at hlt
            omega
          rw [cleanLoop_two]
          by_cases hc : isSep c = true
          · rw [if_pos hc]
            rw [elems_sep c _ hc] at hf1
            exact ih (c2 :: t2) hlt false b hb (fun _ => by simpa using hf1) (by simp)
          · have hc1 : isSep c = false := by simpa using hc
            obtain ⟨e, es, he, hce⟩ := elems_nonsep c (c2 :: t2) hc1
            rw [hce] at hf1
            rw [if_neg hc]
            by_cases h2 : (c == '.' && isSep c2) = true
            · rw [if_pos h2]
              simp only [Bool.and_eq_true] at h2
              rw [elems_sep c2 t2 h2.2] at he
              simp only [List.cons.injEq] at he
              refine ih (c2 :: t2) hlt false b hb (fun _ => ?_) (by simp)
              rw [elems_sep c2 t2 h2.2, he.2]
              simp only [List.mem_cons, not_or] at hf1 ⊢
              exact ⟨by simp, hf1.2⟩
            · rw [if_neg h2]
              by_cases h3 : (c == '.' && c2 == '.' && endsElem t2) = true
              · exfalso
                simp only [Bool.and_eq_true, beq_iff_eq] at h3
                obtain ⟨⟨h31, h32⟩, h33⟩ := h3
                subst h31 h32
                apply hf1
                have hs2 : isSep '.' = false := by decide
                obtain ⟨e2, es2, he2, hce2⟩ := elems_nonsep '.' t2 hs2
                rw [hce2] at he
                simp only [List.cons.injEq] at he
                have he2nil : e2 = [] := by
                  cases t2 with
                  | nil => simp [elems] at he2; exact he2.1
                  | cons c3 t3 =>
                    simp only [endsElem] at h33
                    rw [elems_sep c3 t3 h33] at he2
                    simp only [List.cons.injEq] at he2
                    exact he2.1.symm
                rw [← he.1, he2nil]
                simp
              · rw [if_neg h3]
                obtain ⟨s, hs, -⟩ := ih (c2 :: t2) hlt true
                  (pushByte (sepIfNeeded rooted b) c)
                  (by rw [sepIfNeeded_grown rooted b hb]
                      exact grown_pushByte _ _ _ (grown_pushByte _ _ _ hb))
                  (by simp)
                  (fun _ => by
                    rw [he]
                    simp only [List.tail_cons, List.mem_cons, not_or] at hf1 ⊢
                    exact hf1.2)
                refine ⟨'/' :: c :: s, ?_, fun _ => Or.inr ⟨c :: s, rfl⟩⟩
                rw [hs, sepIfNeeded_grown rooted b hb]
                simp [pushByte]

/-- A cleaned staging root other than `/` and `.` is a lexical ancestor of every path
joined onto it that has no `..` element. -/
theorem Join_rootedUnder (d p : Str) (hclean : Clean d = d) (hroot : d ≠ ['/'])
    (hdot : d ≠ ['.']) (hp : hasDotDot p = false) : rootedUnder d (Join [d, p]) := by
  have hp1 : ['.', '.'] ∉ elems p := by
    simpa [hasDotDot] using hp
  cases d with
  | nil => simp [Clean] at hclean
  | cons c t =>
    have hj : Join [c :: t, p] = Clean (c :: (t ++ '/' :: p)) := by
      simp [Join, List.intercalate]
    rw [hj]
    by_cases hc : isSep c = true
    · have hc0 : c = '/' := (isSep_iff c).1 hc
      simp only [Clean, hc, if_true] at hclean ⊢
      rw [cleanLoop_append_sep true t.length t (le_refl _) false _ p]
      have hbd : (cleanLoop true t false ⟨['/'], 1⟩).out = c :: t := by
        split at hclean
        · exact absurd hclean.symm hdot
        · exact hclean
      have hg : grown true (cleanLoop true t false ⟨['/'], 1⟩) := by
        unfold grown
        rw [hbd]
        cases t with
        | nil => exact absurd (by rw [hc0]) hroot
        | cons a t => simp
      obtain ⟨s, hs, hs2⟩ := cleanLoop_grows true p.length p (le_refl _) false _ hg
        (fun _ => hp1) (by simp)
      rw [hs, hbd]
      simp only [List.length_append, List.length_cons]
      rw [if_neg (by omega)]
      rcases hs2 rfl with h0 | ⟨s1, h1⟩
      · left; simp [h0]
      · right; rw [h1]; exact ⟨s1, by simp⟩
    · have hc1 : isSep c = false := by simpa using hc
      simp only [Clean, hc1, Bool.false_eq_true, if_false] at hclean ⊢
      have happ := cleanLoop_append_sep false (c :: t).length (c :: t) (le_refl _) false
        ⟨[], 0⟩ p
      simp only [List.cons_append] at happ
      rw [happ]
      have hbd : (cleanLoop false (c :: t) false ⟨[], 0⟩).out = c :: t := by
        split at hclean
        · exact absurd hclean.symm hdot
        · exact hclean
      have hg : grown false (cleanLoop false (c :: t) false ⟨[], 0⟩) := by
        unfold grown
        rw [hbd]
        simp
      obtain ⟨s, hs, hs2⟩ := cleanLoop_grows false p.length p (le_refl _) false _ hg
        (fun _ => hp1) (by simp)
      rw [hs, hbd]
      simp only [List.length_append, List.length_cons]
      rw [if_neg (by omega)]
      rcases hs2 rfl with h0 | ⟨s1, h1⟩
      · left; simp [h0]
      · right; rw [h1]; exact ⟨s1, by simp⟩

/-! ## Cleaning is idempotent -/

theorem cleanLoop_nil (rooted : Bool) (m : Bool) (b : lazybuf) :
    cleanLoop rooted [] m b = b := by
  rw [cleanLoop]

theorem cleanLoop_copy_all (rooted : Bool) (e : Str) (he : ∀ c ∈ e, isSep c = false)
    (b : lazybuf) : cleanLoop rooted e true b = { b with out := b.out ++ e } := by
  induction e generalizing b with
  | nil => simp [cleanLoop_nil]
  | cons c t ih =>
    have hc : isSep c = false := he c (by simp)
    rw [cleanLoop_copy, hc]
    simp only [Bool.false_eq_true, if_false]
    rw [ih (fun x hx => he x (by simp [hx]))]
    simp [pushByte]

theorem sepIfNeeded_dotdot (rooted : Bool) (b : lazybuf) :
    (sepIfNeeded rooted b).dotdot = b.dotdot := by
  unfold sepIfNeeded
  split <;> simp [pushByte]

theorem cleanLoop_normal (rooted : Bool) (e : Str) (he : normalElem e) (b : lazybuf) :
    cleanLoop rooted e false b = pushElem rooted b e := by
  obtain ⟨hne, hsep, hdot, hdd⟩ := he
  cases e with
  | nil => exact absurd rfl hne
  | cons c t =>
    have hc : isSep c = false := hsep c (by simp)
    cases t with
    | nil =>
      have hcd : (c == '.') = false := by
        simp only [beq_eq_false_iff_ne, ne_eq]
        intro h
        exact hdot (by rw [h])
      rw [cleanLoop_one, hc, hcd]
      simp [pushElem, pushByte, sepIfNeeded_dotdot]
    | cons c2 t2 =>
      have hc2 : isSep c2 = false := hsep c2 (by simp)
      have h3 : (c == '.' && c2 == '.' && endsElem t2) = false := by
        cases t2 with
        | nil =>
          simp only [endsElem, Bool.and_true, Bool.and_eq_false_imp, beq_iff_eq,
            beq_eq_false_iff_ne, ne_eq]
          intro h1 h2
          exact hdd (by rw [h1, h2])
        | cons c3 t3 =>
          have hc3 : isSep c3 = false := hsep c3 (by simp)
          simp [endsElem, hc3]
      rw [cleanLoop_two, hc, hc2, h3]
      simp only [Bool.false_eq_true, if_false, Bool.and_false]
      rw [cleanLoop_copy_all rooted (c2 :: t2) (fun x hx => hsep x (by simp [hx]))]
      simp [pushElem, pushByte, sepIfNeeded_dotdot]

theorem cleanLoop_dot (rooted : Bool) (b : lazybuf) : cleanLoop rooted ['.'] false b = b := by
  rw [cleanLoop_one]
  simp [isSep]

theorem cleanLoop_dotdot (rooted : Bool) (b : lazybuf) :
    cleanLoop rooted ['.', '.'] false b = dotdotElem rooted b := by
  rw [cleanLoop_two]
  simp [isSep, endsElem, cleanLoop_nil]

theorem elem_cases (e : Str) (he : ∀ c ∈ e, isSep c = false) :
    e = [] ∨ e = ['.'] ∨ e = ['.', '.'] ∨ normalElem e := by
  by_cases h1 : e = []
  · exact Or.inl h1
  · by_cases h2 : e = ['.']
    · exact Or.inr (Or.inl h2)
    · by_cases h3 : e = ['.', '.']
      · exact Or.inr (Or.inr (Or.inl h3))
      · exact Or.inr (Or.inr (Or.inr ⟨h1, he, h2, h3⟩))

/-- A string is free of separators or splits at its first separator. -/
theorem split_first_sep (x : Str) :
    (∀ c ∈ x, isSep c = false) ∨
      ∃ e rest, x = e ++ '/' :: rest ∧ (∀ c ∈ e, isSep c = false) := by
  induction x with
  | nil => left; simp
  | cons a t ih =>
    by_cases ha : isSep a = true
    · right
      exact ⟨[], t, by simp [(isSep_iff a).1 ha], by simp⟩
    · have ha1 : isSep a = false := by simpa using ha
      rcases ih with h | ⟨e, rest, hx, he⟩
      · left
        intro c hc
        rcases List.mem_cons.1 hc with rfl | hc
        · exact ha1
        · exact h c hc
      · right
        refine ⟨a :: e, rest, by simp [hx], ?_⟩
        intro c hc
        rcases List.mem_cons.1 hc with rfl | hc
        · exact ha1
        · exact he c hc

theorem getD_append_elem (p e : Str) (he : ∀ c ∈ e, isSep c = false) (j : Nat)
    (hj : j < e.length) : isSep ((p ++ e).getD (p.length + j) '/') = false := by
  rw [List.getD_eq_getElem?_getD, List.getElem?_append_right (Nat.le_add_right _ _)]
  have : p.length + j - p.length = j := by omega
  rw [this, List.getElem?_eq_getElem hj]
  exact he _ (List.getElem_mem hj)

/-- The backward scan of the `..` case walks over the bytes of the last element. -/
theorem backLoop_skip (p e : Str) (dd : Nat) (he : ∀ c ∈ e, isSep c = false)
    (hdd : dd ≤ p.length) :
    ∀ j, j < e.length → backLoop (p ++ e) dd (p.length + j) = backLoop (p ++ e) dd p.length := by
  intro j
  induction j with
  | zero => intro _; rfl
  | succ j ih =>
    intro hj
    have hstep : backLoop (p ++ e) dd (p.length + (j + 1))
        = backLoop (p ++ e) dd (p.length + j) := by
      show backLoop (p ++ e) dd (p.length + j + 1) = _
      rw [backLoop]
      have h1 : dd < p.length + j + 1 := by omega
      have h2 := getD_append_elem p e he (j + 1) hj
      have h3 : p.length + (j + 1) = p.length + j + 1 := rfl
      rw [h3] at h2
      rw [if_pos (by rw [h2]; simpa using h1)]
    rw [hstep]
    exact ih (by omega)

theorem backLoop_at_sep (q e : Str) (dd : Nat) :
    backLoop (q ++ '/' :: e) dd q.length = q.length := by
  cases hq : q.length with
  | zero => rfl
  | succ w =>
    rw [backLoop]
    have : (q ++ '/' :: e).getD (w + 1) '/' = '/' := by
      rw [List.getD_eq_getElem?_getD, List.getElem?_append_right (by omega)]
      simp [hq]
    rw [if_neg (by rw [this]; simp [isSep])]

theorem backLoop_at_dotdot (out : Str) (dd : Nat) : backLoop out dd dd = dd := by
  cases dd with
  | zero => rfl
  | succ w =>
    rw [backLoop]
    simp

/-- Backtracking right after a real element was written removes exactly that element. -/
theorem dotdotElem_pushElem (rooted : Bool) (b : lazybuf) (e : Str)
    (hne : e ≠ []) (he : ∀ c ∈ e, isSep c = false) (hdd : b.dotdot ≤ b.out.length)
    (hr : rooted = true → b.dotdot = 1) :
    dotdotElem rooted (pushElem rooted b e) = b := by
  have hlen : 0 < e.length := List.length_pos.2 hne
  by_cases hs : ((rooted && b.out.length != 1) || (!rooted && b.out.length != 0)) = true
  · -- a separator was written before the element
    have hout : (pushElem rooted b e).out = (b.out ++ ['/']) ++ e := by
      simp [pushElem, sepIfNeeded, hs, pushByte]
    have hlt : (pushElem rooted b e).dotdot < (pushElem rooted b e).out.length := by
      rw [hout]
      simp only [pushElem, List.length_append, List.length_singleton]
      omega
    have hdot : (pushElem rooted b e).dotdot = b.dotdot := rfl
    unfold dotdotElem
    rw [if_pos hlt, hdot]
    have hidx : (pushElem rooted b e).out.length - 1 = (b.out ++ ['/']).length + (e.length - 1) := by
      rw [hout]
      simp only [List.length_append, List.length_singleton]
      omega
    rw [hidx, hout, backLoop_skip (b.out ++ ['/']) e b.dotdot he
      (by simp only [List.length_append, List.length_singleton]; exact Nat.le_succ_of_le hdd)
      (e.length - 1) (by omega)]
    have hstep : backLoop (b.out ++ ['/'] ++ e) b.dotdot (b.out ++ ['/']).length
        = backLoop (b.out ++ ['/'] ++ e) b.dotdot b.out.length := by
      have hl : (b.out ++ ['/']).length = b.out.length + 1 := by simp
      rw [hl, backLoop]
      have h1 : b.dotdot < b.out.length + 1 := by omega
      have h2 := getD_append_elem (b.out ++ ['/']) e he 0 hlen
      simp only [hl, Nat.add_zero] at h2
      rw [if_pos (by rw [h2]; simpa using h1)]
    rw [hstep]
    have hassoc : b.out ++ ['/'] ++ e = b.out ++ '/' :: e := by simp
    rw [hassoc, backLoop_at_sep b.out e b.dotdot, List.take_left]
  · -- the element sits right at the start of the buffer
    have hs1 : ((rooted && b.out.length != 1) || (!rooted && b.out.length != 0)) = false := by
      simpa using hs
    have hout : (pushElem rooted b e).out = b.out ++ e := by
      simp [pushElem, sepIfNeeded, hs1]
    have hdeq : b.dotdot = b.out.length := by
      cases rooted with
      | true =>
        simp only [Bool.true_and, Bool.not_true, Bool.false_and, Bool.or_false,
          bne_eq_false_iff_eq] at hs1
        rw [hr rfl, hs1]
      | false =>
        simp only [Bool.false_and, Bool.not_false, Bool.true_and, Bool.false_or,
          bne_eq_false_iff_eq] at hs1
        omega
    have hlt : (pushElem rooted b e).dotdot < (pushElem rooted b e).out.length := by
      rw [hout]
      simp only [pushElem, List.length_append]
      omega
    have hdot : (pushElem rooted b e).dotdot = b.dotdot := rfl
    unfold dotdotElem
    rw [if_pos hlt, hdot]
    have hidx : (pushElem rooted b e).out.length - 1 = b.out.length + (e.length - 1) := by
      rw [hout]
      simp only [List.length_append]
      omega
    rw [hidx, hout, backLoop_skip b.out e b.dotdot he hdd (e.length - 1) (by omega)]
    have hb : backLoop (b.out ++ e) b.dotdot b.out.length = b.out.length := by
      rw [← hdeq]
      exact backLoop_at_dotdot _ _
    rw [hb, List.take_left]

theorem dotdotElem_at_limit (b : lazybuf) (h : b.dotdot = b.out.length) :
    dotdotElem false b =
      { out := (if 0 < b.out.length then b.out ++ ['/'] else b.out) ++ ['.', '.'],
        dotdot := ((if 0 < b.out.length then b.out ++ ['/'] else b.out) ++ ['.', '.']).length } := by
  unfold dotdotElem
  rw [if_neg (by omega)]
  simp

theorem dotdots_limit (k : Nat) : (dotdots k).dotdot = (dotdots k).out.length := by
  induction k with
  | zero => rfl
  | succ k ih =>
    show (dotdotElem false (dotdots k)).dotdot = (dotdotElem false (dotdots k)).out.length
    rw [dotdotElem_at_limit _ ih]

theorem foldl_pushElem (rooted : Bool) (es : List Str) (b : lazybuf) :
    (es.foldl (pushElem rooted) b).dotdot = b.dotdot ∧
      ∃ s, (es.foldl (pushElem rooted) b).out = b.out ++ s := by
  induction es generalizing b with
  | nil => exact ⟨rfl, [], by simp⟩
  | cons e es ih =>
    obtain ⟨h1, s, h2⟩ := ih (pushElem rooted b e)
    refine ⟨by rw [List.foldl_cons, h1]; rfl, ?_⟩
    rw [List.foldl_cons, h2]
    unfold pushElem sepIfNeeded
    split
    · exact ⟨['/'] ++ e ++ s, by simp [pushByte]⟩
    · exact ⟨e ++ s, by simp⟩

theorem Tidy_limits (rooted : Bool) (b : lazybuf) (h : Tidy rooted b) :
    b.dotdot ≤ b.out.length ∧ (rooted = true → b.dotdot = 1) := by
  obtain ⟨k, es, -, rfl⟩ := h
  obtain ⟨h1, s, h2⟩ := foldl_pushElem rooted es (baseBuf rooted k)
  rw [h1, h2]
  cases rooted with
  | true => simp [baseBuf]
  | false =>
    simp only [baseBuf, Bool.false_eq_true, if_false, List.length_append]
    rw [dotdots_limit]
    exact ⟨Nat.le_add_right _ _, by simp⟩

theorem Tidy_init (rooted : Bool) : Tidy rooted (if rooted then ⟨['/'], 1⟩ else ⟨[], 0⟩) := by
  refine ⟨0, [], by simp, ?_⟩
  cases rooted <;> rfl

theorem Tidy_pushElem (rooted : Bool) (b : lazybuf) (e : Str) (h : Tidy rooted b)
    (he : normalElem e) : Tidy rooted (pushElem rooted b e) := by
  obtain ⟨k, es, hes, rfl⟩ := h
  refine ⟨k, es ++ [e], ?_, by rw [List.foldl_append]; rfl⟩
  intro x hx
  rcases List.mem_append.1 hx with hx | hx
  · exact hes x hx
  · rw [List.mem_singleton.1 hx]; exact he

theorem Tidy_dotdotElem (rooted : Bool) (b : lazybuf) (h : Tidy rooted b) :
    Tidy rooted (dotdotElem rooted b) := by
  obtain ⟨k, es, hes, rfl⟩ := h
  rcases List.eq_nil_or_concat es with rfl | ⟨L, e, rfl⟩
  · cases rooted with
    | true => exact ⟨0, [], by simp, by simp [baseBuf, dotdotElem]⟩
    | false => exact ⟨k + 1, [], by simp, by simp [baseBuf, dotdots]⟩
  · have hL : Tidy rooted (L.foldl (pushElem rooted) (baseBuf rooted k)) :=
      ⟨k, L, fun x hx => hes x (by simp [hx]), rfl⟩
    have hn : normalElem e := hes e (by simp)
    obtain ⟨hd1, hd2⟩ := Tidy_limits rooted _ hL
    rw [List.concat_eq_append, List.foldl_append]
    simp only [List.foldl_cons, List.foldl_nil]
    rw [dotdotElem_pushElem rooted _ e hn.1 hn.2.1 hd1 hd2]
    exact hL

theorem Tidy_elem (rooted : Bool) (b : lazybuf) (e : Str) (he : ∀ c ∈ e, isSep c = false)
    (h : Tidy rooted b) : Tidy rooted (cleanLoop rooted e false b) := by
  rcases elem_cases e he with rfl | rfl | rfl | hn
  · rw [cleanLoop_nil]; exact h
  · rw [cleanLoop_dot]; exact h
  · rw [cleanLoop_dotdot]; exact Tidy_dotdotElem rooted b h
  · rw [cleanLoop_normal rooted e hn]; exact Tidy_pushElem rooted b e h hn

/-- Whatever the input, the main loop of `filepath.Clean` takes a tidy buffer to a tidy
buffer. -/
theorem Tidy_cleanLoop (rooted : Bool) (n : Nat) :
    ∀ (x : Str), x.length ≤ n → ∀ (b : lazybuf), Tidy rooted b →
      Tidy rooted (cleanLoop rooted x false b) := by
  induction n with
  | zero =>
    intro x hx b hb
    have : x = [] := List.eq_nil_of_length_eq_zero (Nat.le_zero.mp hx)
    subst this
    rw [cleanLoop_nil]; exact hb
  | succ n ih =>
    intro x hx b hb
    rcases split_first_sep x with h | ⟨e, rest, rfl, he⟩
    · exact Tidy_elem rooted b x h hb
    · rw [cleanLoop_append_sep rooted e.length e (le_refl _) false b rest]
      refine ih rest ?_ _ (Tidy_elem rooted b e he hb)
      simp only [List.length_append, List.length_cons] at hx
      omega

/-- Reading back the buffer of a rooted path rebuilds that buffer. -/
theorem rescan_rooted (es : List Str) (hes : ∀ e ∈ es, normalElem e) (k : Nat) :
    ∃ y, (es.foldl (pushElem true) (baseBuf true k)).out = '/' :: y ∧
      cleanLoop true y false ⟨['/'], 1⟩ = es.foldl (pushElem true) (baseBuf true k) := by
  induction es using List.reverseRecOn with
  | nil => exact ⟨[], rfl, cleanLoop_nil _ _ _⟩
  | append_singleton L e ih =>
    obtain ⟨y1, hy1, hscan⟩ := ih (fun x hx => hes x (by simp [hx]))
    have hn : normalElem e := hes e (by simp)
    rw [List.foldl_append]
    simp only [List.foldl_cons, List.foldl_nil]
    cases y1 with
    | nil =>
      rw [cleanLoop_nil] at hscan
      rw [← hscan]
      exact ⟨e, by simp [pushElem, sepIfNeeded], cleanLoop_normal true e hn _⟩
    | cons a y2 =>
      refine ⟨(a :: y2) ++ '/' :: e, ?_, ?_⟩
      · simp [pushElem, sepIfNeeded, hy1, pushByte]
      · rw [cleanLoop_append_sep true (a :: y2).length (a :: y2) (le_refl _) false _ e, hscan]
        exact cleanLoop_normal true e hn _

theorem dotdots_empty (k : Nat) (h : (dotdots k).out = []) : dotdots k = ⟨[], 0⟩ := by
  have h1 := dotdots_limit k
  rw [h] at h1
  cases hb : dotdots k with
  | mk out dd =>
    rw [hb] at h h1
    simp only at h h1
    rw [h, h1]
    rfl

theorem rescan_dotdots (k : Nat) :
    cleanLoop false (dotdots k).out false ⟨[], 0⟩ = dotdots k := by
  induction k with
  | zero => exact cleanLoop_nil _ _ _
  | succ k ih =>
    show cleanLoop false (dotdotElem false (dotdots k)).out false ⟨[], 0⟩
      = dotdotElem false (dotdots k)
    rw [dotdotElem_at_limit _ (dotdots_limit k)]
    simp only
    by_cases hpos : 0 < (dotdots k).out.length
    · rw [if_pos hpos]
      have hassoc : (dotdots k).out ++ ['/'] ++ ['.', '.'] = (dotdots k).out ++ '/' :: ['.', '.'] := by
        simp
      rw [hassoc, cleanLoop_append_sep false _ _ (le_refl _) false _ _, ih, cleanLoop_dotdot,
        dotdotElem_at_limit _ (dotdots_limit k), if_pos hpos, hassoc]
    · rw [if_neg hpos]
      have hnil : (dotdots k).out = [] := List.eq_nil_of_length_eq_zero (by omega)
      have hk := dotdots_empty k hnil
      rw [hk]
      simp only [List.nil_append]
      rw [cleanLoop_dotdot]
      rfl

/-- Reading back the buffer of a path that is not rooted rebuilds that buffer. -/
theorem rescan_unrooted (es : List Str) (hes : ∀ e ∈ es, normalElem e) (k : Nat) :
    cleanLoop false (es.foldl (pushElem false) (baseBuf false k)).out false ⟨[], 0⟩
      = es.foldl (pushElem false) (baseBuf false k) := by
  induction es using List.reverseRecOn with
  | nil => exact rescan_dotdots k
  | append_singleton L e ih =>
    have ih1 := ih (fun x hx => hes x (by simp [hx]))
    have hn : normalElem e := hes e (by simp)
    rw [List.foldl_append]
    simp only [List.foldl_cons, List.foldl_nil]
    by_cases hnil : (L.foldl (pushElem false) (baseBuf false k)).out = []
    · rw [hnil, cleanLoop_nil] at ih1
      rw [← ih1]
      have : (pushElem false ⟨[], 0⟩ e).out = e := by simp [pushElem, sepIfNeeded]
      rw [this]
      exact cleanLoop_normal false e hn _
    · have hlen : (L.foldl (pushElem false) (baseBuf false k)).out.length ≠ 0 := by
        intro h0
        exact hnil (List.eq_nil_of_length_eq_zero h0)
      have hout : (pushElem false (L.foldl (pushElem false) (baseBuf false k)) e).out
          = (L.foldl (pushElem false) (baseBuf false k)).out ++ '/' :: e := by
        simp [pushElem, sepIfNeeded, hlen, pushByte]
      rw [hout, cleanLoop_append_sep false _ _ (le_refl _) false _ e, ih1]
      exact cleanLoop_normal false e hn _

theorem dotdots_head (k : Nat) :
    (dotdots k).out = [] ∨ ∃ t, (dotdots k).out = '.' :: t := by
  induction k with
  | zero => left; rfl
  | succ k ih =>
    right
    show ∃ t, (dotdotElem false (dotdots k)).out = '.' :: t
    rw [dotdotElem_at_limit _ (dotdots_limit k)]
    simp only
    rcases ih with h | ⟨t, h⟩
    · rw [h]; exact ⟨['.'], by simp⟩
    · rw [h]; exact ⟨_, by simp; rfl⟩

/-- The buffer of a path that is not rooted does not start with a separator. -/
theorem Tidy_unrooted_head (b : lazybuf) (h : Tidy false b) (c : Char) (t : Str)
    (hb : b.out = c :: t) : isSep c = false := by
  obtain ⟨k, es, hes, rfl⟩ := h
  rcases dotdots_head k with h0 | ⟨t0, h0⟩
  · cases es with
    | nil =>
      simp only [List.foldl_nil, baseBuf, Bool.false_eq_true, if_false] at hb
      rw [h0] at hb
      cases hb
    | cons e es =>
      rw [List.foldl_cons] at hb
      obtain ⟨-, s, hs⟩ := foldl_pushElem false es (pushElem false (baseBuf false k) e)
      rw [hs] at hb
      have hn : normalElem e := hes e (by simp)
      have hpe : (pushElem false (baseBuf false k) e).out = e := by
        simp [pushElem, sepIfNeeded, baseBuf, h0]
      rw [hpe] at hb
      cases e with
      | nil => exact absurd rfl hn.1
      | cons a e1 =>
        simp only [List.cons_append, List.cons.injEq] at hb
        rw [← hb.1]
        exact hn.2.1 a (by simp)
  · obtain ⟨-, s, hs⟩ := foldl_pushElem false es (baseBuf false k)
    rw [hs] at hb
    simp only [baseBuf, Bool.false_eq_true, if_false] at hb
    rw [h0] at hb
    simp only [List.cons_append, List.cons.injEq] at hb
    rw [← hb.1]
    decide

/-- Go's `filepath.Clean` is idempotent: a cleaned path is its own cleaning. -/
theorem Clean_idem (x : Str) : Clean (Clean x) = Clean x := by
  cases x with
  | nil => decide
  | cons c t =>
    by_cases hc : isSep c = true
    · have hT : Tidy true (cleanLoop true t false ⟨['/'], 1⟩) :=
        Tidy_cleanLoop true t.length t (le_refl _) _ (Tidy_init true)
      obtain ⟨k, es, hes, hb⟩ := hT
      obtain ⟨y, hy, hscan⟩ := rescan_rooted es hes k
      rw [← hb] at hy hscan
      have hx : Clean (c :: t) = '/' :: y := by
        simp only [Clean, hc, if_true, hy]
        simp
      rw [hx]
      simp only [Clean, isSep, beq_self_eq_true, if_true, hscan, hy]
      simp
    · have hc1 : isSep c = false := by simpa using hc
      have hT : Tidy false (cleanLoop false (c :: t) false ⟨[], 0⟩) :=
        Tidy_cleanLoop false (c :: t).length (c :: t) (le_refl _) _ (Tidy_init false)
      have hhead := Tidy_unrooted_head _ hT
      obtain ⟨k, es, hes, hb⟩ := hT
      have hscan := rescan_unrooted es hes k
      rw [← hb] at hscan
      cases ho : (cleanLoop false (c :: t) false ⟨[], 0⟩).out with
      | nil =>
        have hx : Clean (c :: t) = ['.'] := by
          simp [Clean, hc1, ho]
        rw [hx]
        decide
      | cons a t1 =>
        have ha := hhead a t1 ho
        have hx : Clean (c :: t) = a :: t1 := by
          simp [Clean, hc1, ho]
        rw [hx]
        rw [ho] at hscan
        simp only [Clean, ha, Bool.false_eq_true, if_false, hscan, ho]
        simp

theorem Clean_cons (c : Char) (t : Str) :
    Clean (c :: t) =
      if (if isSep c then cleanLoop true t false ⟨['/'], 1⟩
          else cleanLoop false (c :: t) false ⟨[], 0⟩).out.length = 0 then ['.']
      else (if isSep c then cleanLoop true t false ⟨['/'], 1⟩
          else cleanLoop false (c :: t) false ⟨[], 0⟩).out := rfl

theorem pushElem_length (rooted : Bool) (b : lazybuf) (e : Str) :
    e.length ≤ (pushElem rooted b e).out.length := by
  simp [pushElem]

/-- Joining a real element onto any root gives a cleaned path that is at least as long
as the element. -/
theorem Join_normal_last (root name : Str) (hn : normalElem name) :
    (∃ y, Join [root, name] = Clean y) ∧ name.length ≤ (Join [root, name]).length := by
  have hpos : 0 < name.length := List.length_pos.2 hn.1
  have key : ∀ (y : Str) (rooted : Bool) (b0 : lazybuf),
      Clean y = (if (cleanLoop rooted name false b0).out.length = 0 then ['.']
        else (cleanLoop rooted name false b0).out) →
      name.length ≤ (Clean y).length := by
    intro y rooted b0 hy
    rw [hy, cleanLoop_normal rooted name hn]
    have hl := pushElem_length rooted b0 name
    rw [if_neg (by omega)]
    exact hl
  cases root with
  | nil =>
    have hj : Join [[], name] = Clean name := by
      simp [Join, hn.1, List.intercalate]
    rw [hj]
    refine ⟨⟨name, rfl⟩, ?_⟩
    cases hname : name with
    | nil => exact absurd hname hn.1
    | cons a t =>
      have ha : isSep a = false := hn.2.1 a (by rw [hname]; simp)
      rw [← hname]
      refine key name false ⟨[], 0⟩ ?_
      conv_lhs => rw [hname]
      rw [Clean_cons, ha]
      simp only [Bool.false_eq_true, if_false]
      rw [← hname]
  | cons c t =>
    have hj : Join [c :: t, name] = Clean (c :: (t ++ '/' :: name)) := by
      simp [Join, List.intercalate]
    rw [hj]
    refine ⟨⟨_, rfl⟩, ?_⟩
    by_cases hc : isSep c = true
    · refine key _ true (cleanLoop true t false ⟨['/'], 1⟩) ?_
      rw [Clean_cons, hc]
      simp only [if_true]
      rw [cleanLoop_append_sep true t.length t (le_refl _) false _ name]
    · have hc1 : isSep c = false := by simpa using hc
      refine key _ false (cleanLoop false (c :: t) false ⟨[], 0⟩) ?_
      rw [Clean_cons, hc1]
      simp only [Bool.false_eq_true, if_false]
      have happ := cleanLoop_append_sep false (c :: t).length (c :: t) (le_refl _) false
        ⟨[], 0⟩ name
      simp only [List.cons_append] at happ
      rw [happ]

theorem tempElem_normal (ds : List (Fin 10)) :
    normalElem ("mcfg2rpm".toList ++ ds.map digitByte) := by
  refine ⟨by simp, ?_, by simp, by simp⟩
  have h1 : ∀ c ∈ "mcfg2rpm".toList, isSep c = false := by decide
  have h2 : ∀ d : Fin 10, isSep (digitByte d) = false := by decide
  intro c hc
  rcases List.mem_append.1 hc with h | h
  · exact h1 c h
  · obtain ⟨d, -, rfl⟩ := List.mem_map.1 h
    exact h2 d

/-- The name `ioutil.TempDir` tries is in cleaned form and is neither `/` nor `.`. -/
theorem tempName_clean (env : Env) :
    Clean env.tempName = env.tempName ∧ env.tempName ≠ ['/'] ∧ env.tempName ≠ ['.'] := by
  obtain ⟨⟨y, hy⟩, hlen⟩ := Join_normal_last env.tempRoot _ (tempElem_normal env.tempRandom)
  have hl : 8 ≤ env.tempName.length := by
    refine le_trans ?_ hlen
    simp
  refine ⟨?_, ?_, ?_⟩
  · show Clean (Join _) = Join _
    rw [hy, Clean_idem]
  · intro h
    rw [h] at hl
    simp at hl
  · intro h
    rw [h] at hl
    simp at hl

/-! ## Directory creation -/

theorem Mkdir_cases (path : Str) (perm : Nat) (fs : FS) :
    ((Mkdir path perm fs).2 = none ∧ (Mkdir path perm fs).1 = fs.put path (.dir perm) ∧
        fs.lookup path = none) ∨
      ((Mkdir path perm fs).2 ≠ none ∧ (Mkdir path perm fs).1 = fs) := by
  unfold Mkdir
  split
  · right; simp
  · cases hl : fs.lookup path with
    | some nd => right; simp
    | none =>
      cases hp : fs.lookup (parentDir path) with
      | none => right; simp
      | some nd =>
        cases nd with
        | file m d => right; simp
        | dir pm => left; simp

theorem ancestors_of_wellFormed {fs : FS} (hwf : WellFormed fs) {a p : Str}
    (h : Ancestor a p) : ∀ m, fs.lookup p = some (.dir m) → ∃ m1, fs.lookup a = some (.dir m1) := by
  induction h with
  | self => intro m hm; exact ⟨m, hm⟩
  | up hj _ ih =>
    intro m hm
    obtain ⟨m1, hm1⟩ := hwf _ _ hm hj
    exact ih m1 hm1

/-- What a successful `os.MkdirAll` leaves behind: every path of the chain is a directory,
created with `perm` if it was missing, and every other path is as before. -/
theorem mkdirAllAux_ok (perm : Nat) (fs : FS) (hwf : WellFormed fs) (fuel : Nat) :
    ∀ (path : Str) (fs1 : FS), mkdirAllAux fuel path perm fs = (fs1, none) →
      (∀ a, Ancestor a path →
        ∃ m, fs1.lookup a = some (.dir m) ∧ (fs.lookup a = none → m = perm)) ∧
      (∀ q, fs1.lookup q = fs.lookup q ∨
        (fs.lookup q = none ∧ fs1.lookup q = some (.dir perm))) := by
  induction fuel with
  | zero => intro path fs1 h; simp [mkdirAllAux] at h
  | succ fuel ih =>
    intro path fs1 h
    rw [mkdirAllAux] at h
    cases hl : fs.lookup path with
    | some nd =>
      cases nd with
      | file m d => simp [hl] at h
      | dir m =>
        simp only [hl, Prod.mk.injEq, and_true] at h
        subst h
        refine ⟨fun a ha => ?_, fun q => Or.inl rfl⟩
        obtain ⟨m1, hm1⟩ := ancestors_of_wellFormed hwf ha m hl
        exact ⟨m1, hm1, by simp [hm1]⟩
    | none =>
      simp only [hl] at h
      -- the state after the parent has been dealt with
      have key : ∀ (fs0 : FS),
          (∀ a, Ancestor a path → a ≠ path →
            ∃ m, fs0.lookup a = some (.dir m) ∧ (fs.lookup a = none → m = perm)) →
          (∀ q, fs0.lookup q = fs.lookup q ∨
            (fs.lookup q = none ∧ fs0.lookup q = some (.dir perm))) →
          (match Mkdir path perm fs0 with
            | (fs2, none) => (fs2, none)
            | (fs2, some e) =>
                match fs2.lookup path with
                | some (.dir _) => (fs2, none)
                | _ => (fs2, some e)) = (fs1, (none : Option Err)) →
          (∀ a, Ancestor a path →
            ∃ m, fs1.lookup a = some (.dir m) ∧ (fs.lookup a = none → m = perm)) ∧
          (∀ q, fs1.lookup q = fs.lookup q ∨
            (fs.lookup q = none ∧ fs1.lookup q = some (.dir perm))) := by
        intro fs0 hanc hframe hm
        rcases Mkdir_cases path perm fs0 with ⟨h2, h1, h0⟩ | ⟨h2, h1⟩
        · rcases hmk : Mkdir path perm fs0 with ⟨fs2, r2⟩
          rw [hmk] at h2 h1 hm
          simp only at h2 h1
          subst h2
          simp only [Prod.mk.injEq, and_true] at hm
          subst hm
          subst h1
          constructor
          · intro a ha
            by_cases hap : a = path
            · subst hap
              exact ⟨perm, by simp [lookup_put], fun _ => rfl⟩
            · obtain ⟨m, hm1, hm2⟩ := hanc a ha hap
              refine ⟨m, ?_, hm2⟩
              rw [lookup_put, if_neg (Ne.symm hap)]
              exact hm1
          · intro q
            by_cases hqp : path = q
            · subst hqp
              right
              exact ⟨hl, by simp [lookup_put]⟩
            · rw [lookup_put, if_neg hqp]
              exact hframe q
        · rcases hmk : Mkdir path perm fs0 with ⟨fs2, r2⟩
          rw [hmk] at h2 h1 hm
          simp only at h2 h1
          subst h1
          cases r2 with
          | none => exact absurd rfl h2
          | some e =>
            simp only at hm
            cases hl2 : fs2.lookup path with
            | none => simp [hl2] at hm
            | some nd =>
              cases nd with
              | file m d => simp [hl2] at hm
              | dir m =>
                simp only [hl2, Prod.mk.injEq, and_true] at hm
                subst hm
                refine ⟨fun a ha => ?_, hframe⟩
                by_cases hap : a = path
                · subst hap
                  rcases hframe a with hq | ⟨_, hq⟩
                  · rw [hl2, hl] at hq; cases hq
                  · rw [hl2] at hq
                    exact ⟨m, hl2, fun _ => by cases hq; rfl⟩
                · exact hanc a ha hap
      by_cases hj : 1 < elemStart path
      · simp only [hj, if_true] at h
        rcases hrec : mkdirAllAux fuel (path.take (elemStart path - 1)) perm fs with ⟨fs0, r0⟩
        rw [hrec] at h
        cases r0 with
        | some e => simp at h
        | none =>
          simp only at h
          obtain ⟨ihanc, ihframe⟩ := ih _ _ hrec
          refine key fs0 (fun a ha hap => ?_) ihframe h
          cases ha with
          | self => exact absurd rfl hap
          | up _ hup => exact ihanc a hup
      · simp only [hj, if_false] at h
        refine key fs (fun a ha hap => ?_) (fun q => Or.inl rfl) h
        cases ha with
        | self => exact absurd rfl hap
        | up hj1 _ => exact absurd hj1 hj

theorem Mkdir_error (path : Str) (perm : Nat) (fs : FS) (e : Err)
    (h : (Mkdir path perm fs).2 = some e) : e = ENOENT ∨ e = EEXIST ∨ e = ENOTDIR := by
  unfold Mkdir at h
  split at h
  · simp only [Option.some.injEq] at h
    exact Or.inl h.symm
  · cases hl : fs.lookup path with
    | some nd =>
      simp only [hl, Option.some.injEq] at h
      exact Or.inr (Or.inl h.symm)
    | none =>
      simp only [hl] at h
      cases hp : fs.lookup (parentDir path) with
      | none =>
        simp only [hp, Option.some.injEq] at h
        exact Or.inl h.symm
      | some nd =>
        cases nd with
        | file m d =>
          simp only [hp, Option.some.injEq] at h
          exact Or.inr (Or.inr h.symm)
        | dir pm => simp [hp] at h

theorem elemStart_le (path : Str) : elemStart path ≤ path.length := by
  unfold elemStart
  have h1 := (List.dropWhile_sublist (fun c => !isSep c)
    (l := path.reverse.dropWhile isSep)).length_le
  have h2 := (List.dropWhile_sublist isSep (l := path.reverse)).length_le
  simp only [List.length_reverse] at h2
  omega

/-- The budget `path.length + 1` that `MkdirAll` gives the recursion is never used up:
each call passes a strictly shorter path to the next. -/
theorem mkdirAllAux_budget (perm : Nat) (fs : FS) (fuel : Nat) :
    ∀ (path : Str), path.length < fuel →
      (mkdirAllAux fuel path perm fs).2 ≠ some "mkdirall: recursion budget exhausted" := by
  induction fuel with
  | zero => intro path h; omega
  | succ fuel ih =>
    intro path hlen
    rw [mkdirAllAux]
    cases hl : fs.lookup path with
    | some nd =>
      cases nd with
      | file m d => simp only; decide
      | dir m => simp
    | none =>
      simp only
      have hmk : ∀ fs0, (match Mkdir path perm fs0 with
            | (fs2, none) => (fs2, none)
            | (fs2, some e) =>
                match fs2.lookup path with
                | some (.dir _) => (fs2, none)
                | _ => (fs2, some e)).2 ≠ some "mkdirall: recursion budget exhausted" := by
        intro fs0
        rcases hmkd : Mkdir path perm fs0 with ⟨fs2, r2⟩
        cases r2 with
        | none => simp
        | some e =>
          have he := Mkdir_error path perm fs0 e (by rw [hmkd])
          have hne : e ≠ "mkdirall: recursion budget exhausted" := by
            rcases he with h | h | h <;> subst h <;> decide
          simp only
          split
          · simp
          · simpa using hne
      by_cases hj : 1 < elemStart path
      · simp only [hj, if_true]
        have hle := elemStart_le path
        have hshort : (path.take (elemStart path - 1)).length < fuel := by
          rw [List.length_take]
          omega
        have hrec := ih _ hshort
        rcases hr : mkdirAllAux fuel (path.take (elemStart path - 1)) perm fs with ⟨fs0, r0⟩
        rw [hr] at hrec
        cases r0 with
        | some e => simpa using hrec
        | none => exact hmk fs0
      · simp only [hj, if_false]
        exact hmk fs

/-! ## Manifest builder -/

theorem appendContents_eq (d : Str) (files : List File) (acc : List Content) :
    appendContents d files acc =
      acc ++ files.map (fun f => { Source := Join [d, f.Path], Destination := f.Path }) := by
  induction files generalizing acc with
  | nil => simp [appendContents]
  | cons f rest ih => simp [appendContents, ih]

/-- C1: when translation succeeds with file list `ign3.Storage.Files`, the content map of
the manifest returned by `GetNFPMConfig` has exactly one entry per file, in the same
order: the lengths agree and the entry at every index `i` has `Destination` equal to
the path of file `i` and `Source` equal to `filepath.Join(dirName, path)`. -/
theorem C1_content_map_one_entry_per_file (env : Env) (w : wrappedMachineConfig)
    (dirName : Str) (σ : World) (ign3 : Config)
    (h : (GetIgnitionConfig env w σ).2.2 = .ok ign3) :
    ((GetNFPMConfig env w dirName σ).2.2.1.Info.Overridables.Contents).length
        = ign3.Storage.Files.length ∧
    ∀ i f, ign3.Storage.Files.get? i = some f →
      ((GetNFPMConfig env w dirName σ).2.2.1.Info.Overridables.Contents).get? i
        = some { Source := Join [dirName, f.Path], Destination := f.Path } := by
  have hc : (GetNFPMConfig env w dirName σ).2.2.1.Info.Overridables.Contents
      = ign3.Storage.Files.map
          (fun f => { Source := Join [dirName, f.Path], Destination := f.Path }) := by
    unfold GetNFPMConfig
    rcases hg : GetIgnitionConfig env w σ with ⟨w1, σ1, r⟩
    rw [hg] at h
    simp only at h
    subst h
    simp [appendContents_eq]
  rw [hc]
  refine ⟨by simp, ?_⟩
  intro i f hf
  simp [List.get?_eq_getElem?, List.getElem?_map] at hf ⊢
  exact ⟨f, hf, rfl, rfl⟩

theorem C1_content_map_witness :
    (GetIgnitionConfig (demoEnv "example".toList (some [fooConf, emptyFile]) none none)
        (demoWrapped "example".toList) demoWorld).2.2 = .ok ⟨⟨[fooConf, emptyFile]⟩⟩ ∧
    ((GetNFPMConfig (demoEnv "example".toList (some [fooConf, emptyFile]) none none)
        (demoWrapped "example".toList) "/tmp/mcfg2rpm1".toList
        demoWorld).2.2.1.Info.Overridables.Contents).length = 2 ∧
    ((GetNFPMConfig (demoEnv "example".toList (some [fooConf, emptyFile]) none none)
        (demoWrapped "example".toList) "/tmp/mcfg2rpm1".toList
        demoWorld).2.2.1.Info.Overridables.Contents).get? 1
      = some { Source := "/tmp/mcfg2rpm1/a/b/c/file".toList,
               Destination := "a/b/c/file".toList } :=
  ⟨rfl,
   (C1_content_map_one_entry_per_file
      (demoEnv "example".toList (some [fooConf, emptyFile]) none none)
      (demoWrapped "example".toList) "/tmp/mcfg2rpm1".toList demoWorld
      ⟨⟨[fooConf, emptyFile]⟩⟩ rfl).1,
   (C1_content_map_one_entry_per_file
      (demoEnv "example".toList (some [fooConf, emptyFile]) none none)
      (demoWrapped "example".toList) "/tmp/mcfg2rpm1".toList demoWorld
      ⟨⟨[fooConf, emptyFile]⟩⟩ rfl).2 1 emptyFile rfl⟩

/-- C10: the manifest returned by `GetNFPMConfig` carries the document's name and the
fixed policy values (version, architecture, platform, section and the six relationship
lists) for every document, staging root and collaborator behaviour, hence also when
translation fails and an error is returned. -/
theorem C10_fixed_package_metadata (env : Env) (w : wrappedMachineConfig)
    (dirName : Str) (σ : World) :
    let conf := (GetNFPMConfig env w dirName σ).2.2.1
    conf.Info.Name = w.MachineConfig.ObjectMeta.Name ∧
    conf.Info.Version = "v1.0.0".toList ∧
    conf.Info.Arch = "amd64".toList ∧
    conf.Info.Platform = "linux".toList ∧
    conf.Info.Section = "default".toList ∧
    conf.Info.Overridables.Provides = ["bar".toList] ∧
    conf.Info.Overridables.Depends = ["foo".toList, "bar".toList] ∧
    conf.Info.Overridables.Replaces = ["foobar".toList] ∧
    conf.Info.Overridables.Recommends = ["whatever".toList] ∧
    conf.Info.Overridables.Suggests = ["something-else".toList] ∧
    conf.Info.Overridables.Conflicts = ["not-foo".toList, "not-bar".toList] := by
  unfold GetNFPMConfig
  rcases hg : GetIgnitionConfig env w σ with ⟨w1, σ1, r⟩
  cases r <;> simp [baseConfig]

/-! ## Config translator -/

/-- C3, counterexample: with an empty cache and a conversion that fails, two calls in a
row invoke `ParseAndConvertConfig` twice, not once. -/
theorem C3_failed_conversion_is_repeated :
    (demoWrapped "example".toList).ign3 = none ∧
    parseCalls
      (GetIgnitionConfig (demoEnv "example".toList none none none)
        (GetIgnitionConfig (demoEnv "example".toList none none none)
          (demoWrapped "example".toList) demoWorld).1
        (GetIgnitionConfig (demoEnv "example".toList none none none)
          (demoWrapped "example".toList) demoWorld).2.1).2.1.trace = 2 := by
  decide

/-- C3, amended: for a wrapper whose cache is empty, two calls of `GetIgnitionConfig` in a
row return equal results.  When the conversion succeeds the first call caches the value,
the second call returns it and leaves the world as it was, and over the two calls
`ParseAndConvertConfig` is invoked exactly once; when the conversion fails nothing is
cached and each call invokes it. -/
theorem C3_translation_cached_after_success (env : Env) (w : wrappedMachineConfig)
    (σ : World) (hw : w.ign3 = none) :
    (GetIgnitionConfig env (GetIgnitionConfig env w σ).1 (GetIgnitionConfig env w σ).2.1).2.2
      = (GetIgnitionConfig env w σ).2.2 ∧
    (∀ c, env.ParseAndConvertConfig w.MachineConfig.Spec.Config.Raw = .ok c →
      (GetIgnitionConfig env w σ).2.2 = .ok c ∧
      (GetIgnitionConfig env w σ).1.ign3 = some c ∧
      (GetIgnitionConfig env w σ).1.MachineConfig = w.MachineConfig ∧
      (GetIgnitionConfig env (GetIgnitionConfig env w σ).1
        (GetIgnitionConfig env w σ).2.1).2.1 = (GetIgnitionConfig env w σ).2.1 ∧
      (GetIgnitionConfig env (GetIgnitionConfig env w σ).1
        (GetIgnitionConfig env w σ).2.1).2.1.trace
        = σ.trace ++ [.parseAndConvert w.MachineConfig.Spec.Config.Raw]) ∧
    (∀ e, env.ParseAndConvertConfig w.MachineConfig.Spec.Config.Raw = .error e →
      (GetIgnitionConfig env w σ).2.2 = .error e ∧
      (GetIgnitionConfig env w σ).1 = w ∧
      (GetIgnitionConfig env (GetIgnitionConfig env w σ).1
        (GetIgnitionConfig env w σ).2.1).2.1.trace
        = σ.trace ++ [.parseAndConvert w.MachineConfig.Spec.Config.Raw,
                      .parseAndConvert w.MachineConfig.Spec.Config.Raw]) := by
  cases hp : env.ParseAndConvertConfig w.MachineConfig.Spec.Config.Raw with
  | error e => simp [GetIgnitionConfig, hw, hp, World.log]
  | ok c => simp [GetIgnitionConfig, hw, hp, World.log]

theorem C3_translation_cached_witness :
    (demoWrapped "example".toList).ign3 = none ∧
    (GetIgnitionConfig (demoEnv "example".toList (some [fooConf]) none none)
      (GetIgnitionConfig (demoEnv "example".toList (some [fooConf]) none none)
        (demoWrapped "example".toList) demoWorld).1
      (GetIgnitionConfig (demoEnv "example".toList (some [fooConf]) none none)
        (demoWrapped "example".toList) demoWorld).2.1).2.1.trace
      = [.parseAndConvert "ign".toList] :=
  ⟨rfl,
   ((C3_translation_cached_after_success (demoEnv "example".toList (some [fooConf]) none none)
      (demoWrapped "example".toList) demoWorld rfl).2.1 ⟨⟨[fooConf]⟩⟩ rfl).2.2.2.2⟩

/-! ## Configuration loader and `main` -/

theorem readMachineConfig_fs (env : Env) (filename : Str) (σ : World) :
    (readMachineConfig env filename σ).2.1.fs = σ.fs ∧
    ∀ n, Event.tempDir n ∈ (readMachineConfig env filename σ).2.1.trace →
      Event.tempDir n ∈ σ.trace := by
  unfold readMachineConfig ReadFile
  cases hl : σ.fs.lookup filename with
  | none => simp [World.log]
  | some nd =>
    cases nd with
    | dir m => simp [World.log]
    | file m data =>
      simp only [World.log]
      cases hu : env.Unmarshal data with
      | error e => simp
      | ok mc =>
        cases hv : env.ValidateMachineConfig mc.Spec <;> simp [hv]

/-- C5, counterexample: a document whose metadata name is empty and whose `Spec` the
validator accepts is loaded without error, and `main` goes on to create the staging
directory. -/
theorem C5_empty_name_is_loaded :
    (readMachineConfig (demoEnv [] (some [fooConf]) none none) "mc.yaml".toList
        demoWorld).1.MachineConfig.ObjectMeta.Name = [] ∧
    (readMachineConfig (demoEnv [] (some [fooConf]) none none) "mc.yaml".toList
        demoWorld).2.2 = none ∧
    Event.tempDir "/tmp/mcfg2rpm1".toList ∈
      (main (demoEnv [] (some [fooConf]) none none) demoArgs demoWorld).1.trace := by
  decide

/-- C5, amended: once the input is read and deserialized into a document, the error of
`readMachineConfig` is exactly the verdict of the external validator on the document's
`Spec`, whatever the metadata name is; and whenever `readMachineConfig` fails, `main`
exits with that error, with the filesystem untouched and no staging directory created. -/
theorem C5_loader_validates_spec_only (env : Env) (filename : Str) (σ : World) :
    (∀ data mc, (ReadFile filename σ).2 = .ok data → env.Unmarshal data = .ok mc →
      (readMachineConfig env filename σ).2.2 = env.ValidateMachineConfig mc.Spec) ∧
    (∀ e prog, (readMachineConfig env filename σ).2.2 = some e →
      (main env [prog, filename] σ).2 = .exited 1 e ∧
      (main env [prog, filename] σ).1.fs = σ.fs ∧
      ∀ n, Event.tempDir n ∈ (main env [prog, filename] σ).1.trace →
        Event.tempDir n ∈ σ.trace) := by
  constructor
  · intro data mc hr hu
    unfold readMachineConfig
    rcases hrf : ReadFile filename σ with ⟨σ1, r⟩
    rw [hrf] at hr
    simp only at hr
    subst hr
    simp only [hu]
    cases hv : env.ValidateMachineConfig mc.Spec <;> simp [hv]
  · intro e prog he
    have hfs := readMachineConfig_fs env filename σ
    rcases hr : readMachineConfig env filename σ with ⟨wmc, σ1, r⟩
    rw [hr] at he hfs
    simp only at he hfs
    subst he
    simp only [main, List.length_cons, List.length_nil, List.get?, hr]
    simpa using hfs

theorem C5_loader_validates_spec_only_witness :
    (readMachineConfig (rejectingEnv []) "mc.yaml".toList demoWorld).2.2
      = some "spec rejected" ∧
    (main (rejectingEnv []) demoArgs demoWorld).2 = .exited 1 "spec rejected" ∧
    (main (rejectingEnv []) demoArgs demoWorld).1.fs = demoWorld.fs :=
  ⟨rfl,
   ((C5_loader_validates_spec_only (rejectingEnv []) "mc.yaml".toList demoWorld).2
      "spec rejected" "mcfg2rpm".toList rfl).1,
   ((C5_loader_validates_spec_only (rejectingEnv []) "mc.yaml".toList demoWorld).2
      "spec rejected" "mcfg2rpm".toList rfl).2.1⟩

/-- C4, the code at failing inputs: when `WriteIgnition`, `GetNFPMConfig` or `toRPM`
fails after the staging root was created, `main` leaves through `klog.Exit` and the
staging root is still a directory on disk, with no `os.RemoveAll` in the trace; only
the run that returns removes it. -/
theorem C4_staging_root_left_behind_on_failure :
    ((main (demoEnv "example".toList (some [fooConf, badFile]) none none) demoArgs demoWorld).2
        = .exited 1 "missing data prefix" ∧
      (main (demoEnv "example".toList (some [fooConf, badFile]) none none) demoArgs
        demoWorld).1.fs.lookup "/tmp/mcfg2rpm1".toList = some (.dir 0o700) ∧
      Event.removeAll "/tmp/mcfg2rpm1".toList ∉
        (main (demoEnv "example".toList (some [fooConf, badFile]) none none) demoArgs
          demoWorld).1.trace) ∧
    ((main (demoEnv [] (some [fooConf]) none none) demoArgs demoWorld).2
        = .exited 1 "name empty" ∧
      (main (demoEnv [] (some [fooConf]) none none) demoArgs
        demoWorld).1.fs.lookup "/tmp/mcfg2rpm1".toList = some (.dir 0o700)) ∧
    ((main (demoEnv "example".toList (some [fooConf]) (some "boom") none) demoArgs demoWorld).2
        = .exited 1 "boom" ∧
      (main (demoEnv "example".toList (some [fooConf]) (some "boom") none) demoArgs
        demoWorld).1.fs.lookup "/tmp/mcfg2rpm1".toList = some (.dir 0o700)) ∧
    ((main (demoEnv "example".toList (some [fooConf]) none none) demoArgs demoWorld).2
        = .returned ∧
      (main (demoEnv "example".toList (some [fooConf]) none none) demoArgs
        demoWorld).1.fs.lookup "/tmp/mcfg2rpm1".toList = none) := by
  decide

/-! ## Package emitter -/

theorem openTruncWrite_ok {name data : Str} {perm : Nat} {fs fs1 : FS}
    (h : openTruncWrite name data perm fs = (fs1, none)) :
    ∃ m, fs1 = fs.put name (.file m data) ∧ (fs.lookup name = none → m = perm) ∧
      (∀ m0 d0, fs.lookup name = some (.file m0 d0) → m = m0) ∧
      (fs.lookup name = none → ∃ pm, fs.lookup (parentDir name) = some (.dir pm)) := by
  unfold openTruncWrite at h
  split at h
  · simp at h
  · cases hl : fs.lookup name with
    | some nd =>
      cases nd with
      | dir m => simp [hl] at h
      | file m d =>
        simp only [hl, Prod.mk.injEq, and_true] at h
        exact ⟨m, h.symm, by simp, by intro m0 d0 h0; cases h0; rfl, by simp⟩
    | none =>
      simp only [hl] at h
      cases hp : fs.lookup (parentDir name) with
      | none => simp [hp] at h
      | some nd =>
        cases nd with
        | file m d => simp [hp] at h
        | dir pm =>
          simp only [hp, Prod.mk.injEq, and_true] at h
          exact ⟨perm, h.symm, by simp, by simp, by simp⟩

/-- C6: when `toRPM` has created the output file at the conventional target path and the
archive writer fails with `e`, `toRPM` calls `os.Remove` on the target before returning and
returns exactly `e`, whatever `os.Remove` answers (when the removal succeeds the file is
gone); when the archive writer succeeds, `toRPM` returns no error, makes no `os.Remove`
call and the output file holds the written bytes. -/
theorem C6_toRPM_removes_partial_output (env : Env) (conf : NfpmConfig) (σ σ1 : World)
    (info : Info) (pkger : Packager)
    (hget : env.ConfGet conf "rpm".toList = .ok info)
    (hval : env.NfpmValidate info = none)
    (hpk : env.NfpmGet "rpm".toList = .ok pkger)
    (hcr : Create (pkger.ConventionalFileName info) σ = (σ1, none)) :
    (∀ e, (pkger.Package { info with Target := pkger.ConventionalFileName info } σ1.fs).2
        = some e →
      (toRPM env conf σ).2 = some e ∧
      (toRPM env conf σ).1.trace = σ.trace ++
        [.create (pkger.ConventionalFileName info), .package (pkger.ConventionalFileName info),
         .remove (pkger.ConventionalFileName info), .close (pkger.ConventionalFileName info)] ∧
      (env.removeFault (pkger.ConventionalFileName info) = none →
        (toRPM env conf σ).1.fs.lookup (pkger.ConventionalFileName info) = none)) ∧
    ((pkger.Package { info with Target := pkger.ConventionalFileName info } σ1.fs).2 = none →
      (toRPM env conf σ).2 = none ∧
      (toRPM env conf σ).1.trace = σ.trace ++
        [.create (pkger.ConventionalFileName info), .package (pkger.ConventionalFileName info),
         .close (pkger.ConventionalFileName info)] ∧
      ∃ m, (toRPM env conf σ).1.fs.lookup (pkger.ConventionalFileName info)
        = some (.file m
            (pkger.Package { info with Target := pkger.ConventionalFileName info } σ1.fs).1)) := by
  have hcr1 := hcr
  unfold Create at hcr1
  simp only [Prod.mk.injEq] at hcr1
  obtain ⟨hσ1, hnone⟩ := hcr1
  have hopen : openTruncWrite (pkger.ConventionalFileName info) [] 0o666 σ.fs
      = (σ1.fs, none) := by
    rw [← hσ1]
    exact Prod.ext rfl hnone
  obtain ⟨m, hfs1, -, -, -⟩ := openTruncWrite_ok hopen
  have htr : σ1.trace = σ.trace ++ [.create (pkger.ConventionalFileName info)] := by
    rw [← hσ1]
  have hl1 : σ1.fs.lookup (pkger.ConventionalFileName info) = some (.file m []) := by
    rw [hfs1, lookup_put]; simp
  have hne : pkger.ConventionalFileName info ≠ [] := by
    intro h0
    rw [h0] at hopen
    simp [openTruncWrite] at hopen
  have hw : ∀ bytes, (openTruncWrite (pkger.ConventionalFileName info) bytes 0o666 σ1.fs).1
      = σ1.fs.put (pkger.ConventionalFileName info) (.file m bytes) := by
    intro bytes
    simp [openTruncWrite, hne, hl1]
  constructor
  · intro e he
    simp only [toRPM, hget, hval, hpk, hcr, he, hw, World.log, htr]
    refine ⟨trivial, ?_, ?_⟩
    · unfold Remove
      simp only [World.log]
      cases env.removeFault (pkger.ConventionalFileName info) with
      | some e1 => simp
      | none => simp [lookup_put]
    · intro hrf
      unfold Remove
      simp only [hrf, World.log, lookup_put, if_true]
      rw [lookup_dropWhere]
      simp
  · intro he
    simp only [toRPM, hget, hval, hpk, hcr, he, hw, World.log, htr]
    refine ⟨trivial, by simp, m, ?_⟩
    simp [lookup_put]

theorem C6_toRPM_removes_partial_output_witness :
    (toRPM (demoEnv "example".toList (some [fooConf]) (some "boom") (some "denied"))
        (baseConfig (demoWrapped "example".toList)) demoWorld).2 = some "boom" ∧
    (toRPM (demoEnv "example".toList (some [fooConf]) (some "boom") (some "denied"))
        (baseConfig (demoWrapped "example".toList)) demoWorld).1.trace =
      [.create "example.rpm".toList, .package "example.rpm".toList,
       .remove "example.rpm".toList, .close "example.rpm".toList] :=
  ⟨((C6_toRPM_removes_partial_output
      (demoEnv "example".toList (some [fooConf]) (some "boom") (some "denied"))
      (baseConfig (demoWrapped "example".toList)) demoWorld
      (Create "example.rpm".toList demoWorld).1
      (baseConfig (demoWrapped "example".toList)).Info (demoPackager (some "boom"))
      rfl rfl rfl rfl).1 "boom" rfl).1,
   ((C6_toRPM_removes_partial_output
      (demoEnv "example".toList (some [fooConf]) (some "boom") (some "denied"))
      (baseConfig (demoWrapped "example".toList)) demoWorld
      (Create "example.rpm".toList demoWorld).1
      (baseConfig (demoWrapped "example".toList)).Info (demoPackager (some "boom"))
      rfl rfl rfl rfl).1 "boom" rfl).2.1⟩

/-! ## Filesystem materializer -/

theorem WriteFile_ok {name data : Str} {perm : Nat} {σ σ1 : World}
    (h : WriteFile name data perm σ = (σ1, none)) :
    ∃ m, σ1.fs = σ.fs.put name (.file m data) ∧ (σ.fs.lookup name = none → m = perm) ∧
      (∀ m0 d0, σ.fs.lookup name = some (.file m0 d0) → m = m0) ∧
      σ1.trace = σ.trace ++ [.writeFile name data perm] := by
  unfold WriteFile at h
  simp only [Prod.mk.injEq] at h
  obtain ⟨hσ, hn⟩ := h
  have ho : openTruncWrite name data perm σ.fs = (σ1.fs, none) := by
    rw [← hσ]; exact Prod.ext rfl hn
  obtain ⟨m, h1, h2, h3, -⟩ := openTruncWrite_ok ho
  exact ⟨m, h1, h2, h3, by rw [← hσ]⟩

/-- C7: for an entry whose content source is absent, `writeIgnFileToDisk` makes no call
to the decoder (its result is the same for every decoder and every other collaborator,
and its trace gains only the `MkdirAll` call and, after it succeeds, the `WriteFile` call
with zero-length data); its error, if any, is that of `MkdirAll` or of `WriteFile`; and
when it succeeds the file at `filepath.Join(dirName, path)` exists and is empty. -/
theorem C7_absent_source_writes_empty_file (env : Env) (dirName : Str) (file : File)
    (σ : World) (h : file.Contents.Source = none) :
    (∀ env1, writeIgnFileToDisk env1 dirName file σ = writeIgnFileToDisk env dirName file σ) ∧
    (((writeIgnFileToDisk env dirName file σ).1.trace
          = σ.trace ++ [.mkdirAll (Dir (Join [dirName, file.Path])) 0o755] ∧
        (writeIgnFileToDisk env dirName file σ).2
          = (MkdirAll (Dir (Join [dirName, file.Path])) 0o755 σ).2 ∧
        (writeIgnFileToDisk env dirName file σ).2 ≠ none) ∨
      ((writeIgnFileToDisk env dirName file σ).1.trace
          = σ.trace ++ [.mkdirAll (Dir (Join [dirName, file.Path])) 0o755,
                        .writeFile (Join [dirName, file.Path]) [] 0o755] ∧
        (writeIgnFileToDisk env dirName file σ).2
          = (WriteFile (Join [dirName, file.Path]) [] 0o755
              (MkdirAll (Dir (Join [dirName, file.Path])) 0o755 σ).1).2)) ∧
    ((writeIgnFileToDisk env dirName file σ).2 = none →
      ∃ m, (writeIgnFileToDisk env dirName file σ).1.fs.lookup (Join [dirName, file.Path])
        = some (.file m [])) := by
  refine ⟨?_, ?_, ?_⟩
  · intro env1
    simp only [writeIgnFileToDisk, h]
  · simp only [writeIgnFileToDisk, h]
    rcases hm : MkdirAll (Dir (Join [dirName, file.Path])) 0o755 σ with ⟨σ1, r⟩
    have htr : σ1.trace = σ.trace ++ [.mkdirAll (Dir (Join [dirName, file.Path])) 0o755] := by
      have := congrArg (fun x => x.1.trace) hm
      simpa [MkdirAll] using this.symm
    cases r with
    | some e => left; simp [htr]
    | none => right; simp [WriteFile, htr]
  · simp only [writeIgnFileToDisk, h]
    rcases hm : MkdirAll (Dir (Join [dirName, file.Path])) 0o755 σ with ⟨σ1, r⟩
    cases r with
    | some e => simp
    | none =>
      simp only
      intro hw
      rcases hwf : WriteFile (Join [dirName, file.Path]) [] 0o755 σ1 with ⟨σ2, r2⟩
      rw [hwf] at hw
      simp only at hw
      subst hw
      obtain ⟨m, h1, -, -, -⟩ := WriteFile_ok hwf
      exact ⟨m, by simp [h1, lookup_put]⟩

theorem C7_absent_source_witness :
    emptyFile.Contents.Source = none ∧
    (writeIgnFileToDisk (demoEnv "example".toList (some [emptyFile]) none none)
        "/tmp".toList emptyFile demoWorld).2 = none ∧
    ∃ m, (writeIgnFileToDisk (demoEnv "example".toList (some [emptyFile]) none none)
        "/tmp".toList emptyFile demoWorld).1.fs.lookup (Join ["/tmp".toList, emptyFile.Path])
      = some (.file m []) :=
  ⟨rfl, by decide,
   (C7_absent_source_writes_empty_file (demoEnv "example".toList (some [emptyFile]) none none)
      "/tmp".toList emptyFile demoWorld rfl).2.2 (by decide)⟩

/-! ## Fail-fast materialization -/

theorem mkdirAllAux_frame (perm : Nat) (fs : FS) (fuel : Nat) :
    ∀ (path : Str) (q : Str),
      (mkdirAllAux fuel path perm fs).1.lookup q = fs.lookup q ∨
        (fs.lookup q = none ∧ (mkdirAllAux fuel path perm fs).1.lookup q = some (.dir perm)) := by
  induction fuel with
  | zero => intro path q; left; rfl
  | succ fuel ih =>
    intro path q
    rw [mkdirAllAux]
    cases hl : fs.lookup path with
    | some nd =>
      cases nd with
      | file m d => left; rfl
      | dir m => left; rfl
    | none =>
      simp only
      have key : ∀ (fs0 : FS),
          (fs0.lookup q = fs.lookup q ∨ (fs.lookup q = none ∧ fs0.lookup q = some (.dir perm))) →
          ((match Mkdir path perm fs0 with
            | (fs2, none) => (fs2, none)
            | (fs2, some e) =>
                match fs2.lookup path with
                | some (.dir _) => (fs2, none)
                | _ => (fs2, some e) : FS × Option Err).1.lookup q = fs.lookup q ∨
            (fs.lookup q = none ∧
              (match Mkdir path perm fs0 with
                | (fs2, none) => (fs2, none)
                | (fs2, some e) =>
                    match fs2.lookup path with
                    | some (.dir _) => (fs2, none)
                    | _ => (fs2, some e) : FS × Option Err).1.lookup q = some (.dir perm))) := by
        intro fs0 h0
        have hfst : (match Mkdir path perm fs0 with
            | (fs2, none) => (fs2, none)
            | (fs2, some e) =>
                match fs2.lookup path with
                | some (.dir _) => (fs2, none)
                | _ => (fs2, some e) : FS × Option Err).1 = (Mkdir path perm fs0).1 := by
          rcases Mkdir path perm fs0 with ⟨fs2, r2⟩
          cases r2 with
          | none => rfl
          | some e =>
            simp only
            split <;> rfl
        rw [hfst]
        rcases Mkdir_cases path perm fs0 with ⟨-, h1, hnone⟩ | ⟨-, h1⟩
        · rw [h1, lookup_put]
          by_cases hpq : path = q
          · subst hpq
            right
            exact ⟨hl, by simp⟩
          · rw [if_neg hpq]; exact h0
        · rw [h1]; exact h0
      by_cases hj : 1 < elemStart path
      · simp only [hj, if_true]
        have hrec := ih (path.take (elemStart path - 1)) q
        rcases hr : mkdirAllAux fuel (path.take (elemStart path - 1)) perm fs with ⟨fs0, r0⟩
        rw [hr] at hrec
        cases r0 with
        | some e => exact hrec
        | none => exact key fs0 hrec
      · simp only [hj, if_false]
        exact key fs (Or.inl rfl)

theorem openTruncWrite_keeps_files (name data : Str) (perm : Nat) (fs : FS) (q : Str)
    (m : Nat) (d : Str) (h : fs.lookup q = some (.file m d)) :
    ∃ m1 d1, (openTruncWrite name data perm fs).1.lookup q = some (.file m1 d1) := by
  unfold openTruncWrite
  split
  · exact ⟨m, d, h⟩
  · cases hl : fs.lookup name with
    | some nd =>
      cases nd with
      | dir pm => exact ⟨m, d, h⟩
      | file m0 d0 =>
        simp only [lookup_put]
        by_cases hq : name = q
        · exact ⟨m0, data, by simp [hq]⟩
        · exact ⟨m, d, by simp [hq, h]⟩
    | none =>
      simp only
      cases hp : fs.lookup (parentDir name) with
      | none => exact ⟨m, d, h⟩
      | some nd =>
        cases nd with
        | file m0 d0 => exact ⟨m, d, h⟩
        | dir pm =>
          simp only [lookup_put]
          by_cases hq : name = q
          · exact ⟨perm, data, by simp [hq]⟩
          · exact ⟨m, d, by simp [hq, h]⟩

/-- Whatever its outcome, `writeIgnFileToDisk` only appends to the trace and leaves every
existing file a file. -/
theorem writeIgnFileToDisk_keeps (env : Env) (dirName : Str) (file : File) (σ : World) :
    (∃ new, (writeIgnFileToDisk env dirName file σ).1.trace = σ.trace ++ new) ∧
    ∀ q m d, σ.fs.lookup q = some (.file m d) →
      ∃ m1 d1, (writeIgnFileToDisk env dirName file σ).1.fs.lookup q = some (.file m1 d1) := by
  have hmk : ∀ q m d, σ.fs.lookup q = some (.file m d) →
      (MkdirAll (Dir (Join [dirName, file.Path])) 0o755 σ).1.fs.lookup q
        = some (.file m d) := by
    intro q m d h
    rcases mkdirAllAux_frame 0o755 σ.fs ((Dir (Join [dirName, file.Path])).length + 1)
      (Dir (Join [dirName, file.Path])) q with h1 | ⟨h1, -⟩
    · simp only [MkdirAll]; rw [h1]; exact h
    · rw [h1] at h; cases h
  have hmt : (MkdirAll (Dir (Join [dirName, file.Path])) 0o755 σ).1.trace
      = σ.trace ++ [.mkdirAll (Dir (Join [dirName, file.Path])) 0o755] := rfl
  unfold writeIgnFileToDisk
  simp only
  rcases hm : MkdirAll (Dir (Join [dirName, file.Path])) 0o755 σ with ⟨σ1, r⟩
  rw [hm] at hmk hmt
  simp only at hmk hmt
  cases r with
  | some e => exact ⟨⟨_, hmt⟩, fun q m d h => ⟨m, d, hmk q m d h⟩⟩
  | none =>
    simp only
    cases hs : file.Contents.Source with
    | none =>
      simp only [WriteFile]
      refine ⟨⟨_, by rw [hmt, List.append_assoc]⟩, fun q m d h => ?_⟩
      exact openTruncWrite_keeps_files _ _ _ _ q m d (hmk q m d h)
    | some src =>
      simp only
      cases hd : env.DecodeString src with
      | error e =>
        simp only [World.log]
        exact ⟨⟨_, by rw [hmt, List.append_assoc]⟩, fun q m d h => ⟨m, d, hmk q m d h⟩⟩
      | ok contents =>
        simp only [WriteFile, World.log]
        refine ⟨⟨_, by rw [hmt, List.append_assoc, List.append_assoc]⟩, fun q m d h => ?_⟩
        exact openTruncWrite_keeps_files _ _ _ _ q m d (hmk q m d h)

/-- A successful `writeIgnFileToDisk` has made the `WriteFile` call with the decoded bytes
and left a file holding them at the joined path. -/
theorem writeIgnFileToDisk_stages (env : Env) (dirName : Str) (file : File) (σ σ1 : World)
    (h : writeIgnFileToDisk env dirName file σ = (σ1, none)) :
    ∃ data new m, decodesTo env file data ∧ σ1.trace = σ.trace ++ new ∧
      Event.writeFile (Join [dirName, file.Path]) data 0o755 ∈ new ∧
      σ1.fs.lookup (Join [dirName, file.Path]) = some (.file m data) := by
  unfold writeIgnFileToDisk at h
  simp only at h
  have hmt : (MkdirAll (Dir (Join [dirName, file.Path])) 0o755 σ).1.trace
      = σ.trace ++ [.mkdirAll (Dir (Join [dirName, file.Path])) 0o755] := rfl
  rcases hm : MkdirAll (Dir (Join [dirName, file.Path])) 0o755 σ with ⟨σ0, r⟩
  rw [hm] at h hmt
  simp only at hmt
  cases r with
  | some e => simp at h
  | none =>
    simp only at h
    cases hs : file.Contents.Source with
    | none =>
      simp only [hs] at h
      obtain ⟨m, h1, -, -, h4⟩ := WriteFile_ok h
      refine ⟨[], [.mkdirAll (Dir (Join [dirName, file.Path])) 0o755,
          .writeFile (Join [dirName, file.Path]) [] 0o755], m, Or.inl ⟨hs, rfl⟩, ?_, ?_,
          by rw [h1, lookup_put]; simp⟩
      · rw [h4, hmt, List.append_assoc]; rfl
      · simp
    | some src =>
      simp only [hs] at h
      cases hd : env.DecodeString src with
      | error e => simp [hd] at h
      | ok contents =>
        simp only [hd] at h
        obtain ⟨m, h1, -, -, h4⟩ := WriteFile_ok h
        refine ⟨contents.Data, [.mkdirAll (Dir (Join [dirName, file.Path])) 0o755,
          .decodeString src, .writeFile (Join [dirName, file.Path]) contents.Data 0o755], m,
          Or.inr ⟨src, hs, hd⟩, ?_, ?_, by rw [h1, lookup_put]; simp⟩
        · rw [h4]
          simp [World.log, hmt]
        · simp

theorem staged_keeps (env : Env) (dirName : Str) (file g : File) (before : List Event)
    (σ : World) (h : staged env dirName before σ g) :
    staged env dirName before (writeIgnFileToDisk env dirName file σ).1 g := by
  obtain ⟨⟨data, new, hdec, htr, hev⟩, m, d, hfile⟩ := h
  obtain ⟨⟨new1, hnew1⟩, hkeep⟩ := writeIgnFileToDisk_keeps env dirName file σ
  refine ⟨⟨data, new ++ new1, hdec, ?_, List.mem_append_left _ hev⟩, hkeep _ m d hfile⟩
  rw [hnew1, htr, List.append_assoc]

/-- Materializing a list leaves every one of its entries staged. -/
theorem Materialized_staged (env : Env) (dirName : Str) {files : List File} {σ0 σ1 : World}
    (h : Materialized env dirName files σ0 σ1) :
    ∀ (before base : List Event), σ0.trace = before ++ base →
      (∃ new, σ1.trace = before ++ new) ∧
      (∀ g, staged env dirName before σ0 g → staged env dirName before σ1 g) ∧
      ∀ g ∈ files, staged env dirName before σ1 g := by
  induction h with
  | nil σ => intro before base hb; exact ⟨⟨base, hb⟩, fun g hg => hg, by simp⟩
  | @cons file rest σ σ1 σ2 hw _ ih =>
    intro before base hb
    obtain ⟨data, new, m, hdec, htr, hev, hfile⟩ := writeIgnFileToDisk_stages _ _ _ _ _ hw
    have hb1 : σ1.trace = before ++ (base ++ new) := by
      rw [htr, hb, List.append_assoc]
    obtain ⟨hext, hkeep, hall⟩ := ih before (base ++ new) hb1
    have hstep : ∀ g, staged env dirName before σ g → staged env dirName before σ1 g := by
      intro g hg
      have := staged_keeps env dirName file g before σ hg
      rw [hw] at this
      exact this
    refine ⟨hext, fun g hg => hkeep g (hstep g hg), ?_⟩
    intro g hg
    rcases List.mem_cons.1 hg with rfl | hg
    · exact hkeep _ ⟨⟨data, base ++ new, hdec, hb1, List.mem_append_right _ hev⟩, m, data, hfile⟩
    · exact hall g hg

theorem writeFiles_stops_at_first_failure (env : Env) (dirName : Str)
    {pre : List File} {σ0 σ1 : World} (hpre : Materialized env dirName pre σ0 σ1)
    (file : File) (post : List File) (r : World × Option Err) (e : Err)
    (hf : writeIgnFileToDisk env dirName file σ1 = r) (he : r.2 = some e) :
    writeFiles env dirName (pre ++ file :: post) σ0 = (r.1, some e) := by
  induction hpre with
  | nil σ =>
    obtain ⟨σ2, r2⟩ := r
    simp only at he
    subst he
    simp [writeFiles, hf]
  | cons h _ ih =>
    simp only [List.cons_append, writeFiles, h]
    exact ih hf

theorem writeFiles_ok_iff (env : Env) (dirName : Str) (files : List File) (σ0 σ1 : World) :
    writeFiles env dirName files σ0 = (σ1, none) ↔ Materialized env dirName files σ0 σ1 := by
  induction files generalizing σ0 with
  | nil =>
    constructor
    · intro h
      simp only [writeFiles, Prod.mk.injEq, and_true] at h
      subst h
      exact Materialized.nil _
    · intro h
      cases h
      rfl
  | cons f rest ih =>
    constructor
    · intro h
      simp only [writeFiles] at h
      rcases hw : writeIgnFileToDisk env dirName f σ0 with ⟨σ2, r⟩
      rw [hw] at h
      cases r with
      | some e => simp at h
      | none => exact Materialized.cons hw ((ih σ2).1 h)
    · intro h
      cases h with
      | cons hw hrest =>
        simp only [writeFiles, hw]
        exact (ih _).2 hrest

/-- C9: `WriteIgnition` walks the file list in order and stops at the first failure.
When translation fails it returns the translator's error and leaves the filesystem as it
was.  When translation yields the list `pre ++ file :: post`, the entries of `pre` are
materialized one after the other and `file` then fails with `e`, it returns exactly `e`,
the world is the one left by that failing call, so nothing of `post` is decoded or
written, and every entry of `pre` is staged in it: its `WriteFile` call with its decoded
bytes was made during the run and a file sits at its joined path.  It returns no error
exactly when every entry is materialized in turn; the world is then the one after the
last entry and every entry is staged in it. -/
theorem C9_write_ignition_fail_fast (env : Env) (w : wrappedMachineConfig) (dirName : Str)
    (σ : World) :
    (∀ e, (GetIgnitionConfig env w σ).2.2 = .error e →
      (WriteIgnition env w dirName σ).2.2 = some e ∧
      (WriteIgnition env w dirName σ).2.1 = (GetIgnitionConfig env w σ).2.1 ∧
      (WriteIgnition env w dirName σ).2.1.fs = σ.fs) ∧
    (∀ ign3, (GetIgnitionConfig env w σ).2.2 = .ok ign3 →
      (∀ pre file post σ1 e, ign3.Storage.Files = pre ++ file :: post →
        Materialized env dirName pre (GetIgnitionConfig env w σ).2.1 σ1 →
        (writeIgnFileToDisk env dirName file σ1).2 = some e →
        (WriteIgnition env w dirName σ).2.2 = some e ∧
        (WriteIgnition env w dirName σ).2.1 = (writeIgnFileToDisk env dirName file σ1).1 ∧
        ∀ g ∈ pre, staged env dirName (GetIgnitionConfig env w σ).2.1.trace
          (WriteIgnition env w dirName σ).2.1 g) ∧
      ((WriteIgnition env w dirName σ).2.2 = none ↔
        ∃ σ1, Materialized env dirName ign3.Storage.Files (GetIgnitionConfig env w σ).2.1 σ1) ∧
      (∀ σ1, Materialized env dirName ign3.Storage.Files (GetIgnitionConfig env w σ).2.1 σ1 →
        (WriteIgnition env w dirName σ).2.1 = σ1 ∧
        ∀ g ∈ ign3.Storage.Files, staged env dirName (GetIgnitionConfig env w σ).2.1.trace
          σ1 g)) := by
  have hfs : (GetIgnitionConfig env w σ).2.1.fs = σ.fs := by
    unfold GetIgnitionConfig
    cases w.ign3 with
    | some c => rfl
    | none =>
      simp only
      cases env.ParseAndConvertConfig w.MachineConfig.Spec.Config.Raw <;> rfl
  rcases hg : GetIgnitionConfig env w σ with ⟨w1, σ0, r⟩
  rw [hg] at hfs
  simp only at hfs
  constructor
  · intro e he
    simp only at he
    subst he
    simp [WriteIgnition, hg, hfs]
  · intro ign3 hi
    simp only at hi
    subst hi
    simp only [WriteIgnition, hg]
    refine ⟨?_, ?_, ?_⟩
    · intro pre file post σ1 e hfiles hpre hfail
      rw [hfiles, writeFiles_stops_at_first_failure env dirName hpre file post _ e rfl hfail]
      refine ⟨rfl, rfl, fun g hg1 => ?_⟩
      have hst := (Materialized_staged env dirName hpre σ0.trace [] (by simp)).2.2 g hg1
      exact staged_keeps env dirName file g σ0.trace σ1 hst
    · constructor
      · intro hnone
        refine ⟨(writeFiles env dirName ign3.Storage.Files σ0).1, ?_⟩
        exact (writeFiles_ok_iff _ _ _ _ _).1 (Prod.ext rfl hnone)
      · rintro ⟨σ1, hm⟩
        rw [(writeFiles_ok_iff _ _ _ _ _).2 hm]
    · intro σ1 hm
      rw [(writeFiles_ok_iff _ _ _ _ _).2 hm]
      exact ⟨rfl, (Materialized_staged env dirName hm σ0.trace [] (by simp)).2.2⟩

theorem C9_write_ignition_fail_fast_witness :
    (WriteIgnition (demoEnv "example".toList (some [fooConf, badFile, emptyFile]) none none)
        (demoWrapped "example".toList) "/tmp".toList demoWorld).2.2
      = some "missing data prefix" ∧
    staged (demoEnv "example".toList (some [fooConf, badFile, emptyFile]) none none)
      "/tmp".toList [.parseAndConvert "ign".toList]
      (WriteIgnition (demoEnv "example".toList (some [fooConf, badFile, emptyFile]) none none)
        (demoWrapped "example".toList) "/tmp".toList demoWorld).2.1 fooConf ∧
    (WriteIgnition (demoEnv "example".toList (some [fooConf, badFile, emptyFile]) none none)
        (demoWrapped "example".toList) "/tmp".toList demoWorld).2.1.fs.lookup
        "/tmp/etc/foo.conf".toList = some (.file 0o755 "hello".toList) ∧
    (WriteIgnition (demoEnv "example".toList (some [fooConf, badFile, emptyFile]) none none)
        (demoWrapped "example".toList) "/tmp".toList demoWorld).2.1.fs.lookup
        "/tmp/a/b/c/file".toList = none :=
  ⟨(((C9_write_ignition_fail_fast
        (demoEnv "example".toList (some [fooConf, badFile, emptyFile]) none none)
        (demoWrapped "example".toList) "/tmp".toList demoWorld).2
        ⟨⟨[fooConf, badFile, emptyFile]⟩⟩ rfl).1 [fooConf] badFile [emptyFile]
        (writeIgnFileToDisk
          (demoEnv "example".toList (some [fooConf, badFile, emptyFile]) none none)
          "/tmp".toList fooConf
          (GetIgnitionConfig
            (demoEnv "example".toList (some [fooConf, badFile, emptyFile]) none none)
            (demoWrapped "example".toList) demoWorld).2.1).1
        "missing data prefix" rfl
        (Materialized.cons (by decide) (Materialized.nil _)) (by decide)).1,
   (((C9_write_ignition_fail_fast
        (demoEnv "example".toList (some [fooConf, badFile, emptyFile]) none none)
        (demoWrapped "example".toList) "/tmp".toList demoWorld).2
        ⟨⟨[fooConf, badFile, emptyFile]⟩⟩ rfl).1 [fooConf] badFile [emptyFile]
        (writeIgnFileToDisk
          (demoEnv "example".toList (some [fooConf, badFile, emptyFile]) none none)
          "/tmp".toList fooConf
          (GetIgnitionConfig
            (demoEnv "example".toList (some [fooConf, badFile, emptyFile]) none none)
            (demoWrapped "example".toList) demoWorld).2.1).1
        "missing data prefix" rfl
        (Materialized.cons (by decide) (Materialized.nil _)) (by decide)).2.2 fooConf
        (by simp),
   by decide, by decide⟩

/-! ## Staged paths -/

theorem writeIgnFileToDisk_writes (env : Env) (dirName : Str) (file : File) (σ : World)
    (name data : Str) (perm : Nat)
    (h : Event.writeFile name data perm ∈ (writeIgnFileToDisk env dirName file σ).1.trace) :
    Event.writeFile name data perm ∈ σ.trace ∨ name = Join [dirName, file.Path] := by
  unfold writeIgnFileToDisk at h
  simp only at h
  rcases hm : MkdirAll (Dir (Join [dirName, file.Path])) 0o755 σ with ⟨σ1, r⟩
  have htr : σ1.trace = σ.trace ++ [.mkdirAll (Dir (Join [dirName, file.Path])) 0o755] := by
    have := congrArg (fun x => x.1.trace) hm
    simpa [MkdirAll] using this.symm
  rw [hm] at h
  cases r with
  | some e =>
    simp only [htr, List.mem_append, List.mem_singleton] at h
    rcases h with h | h
    · exact Or.inl h
    · cases h
  | none =>
    simp only at h
    cases hs : file.Contents.Source with
    | none =>
      simp only [hs, WriteFile, htr, List.mem_append, List.mem_singleton] at h
      rcases h with (h | h) | h
      · exact Or.inl h
      · cases h
      · cases h; exact Or.inr rfl
    | some src =>
      simp only [hs] at h
      cases hd : env.DecodeString src with
      | error e =>
        simp only [hd, World.log, htr, List.mem_append, List.mem_singleton] at h
        rcases h with (h | h) | h
        · exact Or.inl h
        · cases h
        · cases h
      | ok contents =>
        simp only [hd, WriteFile, World.log, htr, List.mem_append, List.mem_singleton] at h
        rcases h with ((h | h) | h) | h
        · exact Or.inl h
        · cases h
        · cases h
        · cases h; exact Or.inr rfl

theorem TempDir_name (env : Env) (σ : World) (d : Str) (h : (TempDir env σ).2 = .ok d) :
    d = env.tempName := by
  unfold TempDir at h
  rcases hm : Mkdir env.tempName 0o700 σ.fs with ⟨fs1, r⟩
  rw [hm] at h
  cases r with
  | none =>
    simp only [Except.ok.injEq] at h
    exact h.symm
  | some e => simp at h

/-- C2, counterexample: for the staging root `/tmp/mcfg2rpm1` and the path
`../etc/passwd`, the `Source` recorded by `GetNFPMConfig` and the file written by
`writeIgnFileToDisk` are at `/tmp/etc/passwd`, which is not rooted under the staging
root.  And for paths without `..`, the joined path is not rooted under the root in the
claim's sense when the root is `/`, is `.`, or is not in cleaned form (`/tmp/`). -/
theorem C2_dotdot_escapes_staging_root :
    (hasDotDot escaping.Path = true ∧
      ((GetNFPMConfig (demoEnv "example".toList (some [escaping]) none none)
          (demoWrapped "example".toList) "/tmp/mcfg2rpm1".toList
          demoWorld).2.2.1.Info.Overridables.Contents).map (fun c => c.Source)
        = ["/tmp/etc/passwd".toList] ∧
      ¬ rootedUnder "/tmp/mcfg2rpm1".toList "/tmp/etc/passwd".toList ∧
      (writeIgnFileToDisk (demoEnv "example".toList (some [escaping]) none none)
          "/tmp/mcfg2rpm1".toList escaping demoWorld).1.fs.lookup "/tmp/etc/passwd".toList
        = some (.file 0o755 [])) ∧
    (hasDotDot fooConf.Path = false ∧
      Join ["/".toList, fooConf.Path] = "/etc/foo.conf".toList ∧
      ¬ rootedUnder "/".toList (Join ["/".toList, fooConf.Path])) ∧
    (hasDotDot emptyFile.Path = false ∧
      Join [".".toList, emptyFile.Path] = "a/b/c/file".toList ∧
      ¬ rootedUnder ".".toList (Join [".".toList, emptyFile.Path])) ∧
    (Join ["/tmp/".toList, emptyFile.Path] = "/tmp/a/b/c/file".toList ∧
      ¬ rootedUnder "/tmp/".toList (Join ["/tmp/".toList, emptyFile.Path])) := by
  decide

/-- C2, amended: let `dirName` be a staging root that `ioutil.TempDir` returned or, more
generally, any root in cleaned form other than `/` and `.` (`Clean dirName = dirName`).
Then for every single file path without a `..` element, whatever the other paths of the
config are: the entry that `GetNFPMConfig` records for it at the same index has `Source`
equal to `filepath.Join(dirName, path)`, and that `Source`, like every path that
`writeIgnFileToDisk` writes for such a file, is rooted under `dirName`: it is `dirName`
or starts with `dirName` followed by a separator. -/
theorem C2_sources_rooted_without_dotdot (env : Env) (w : wrappedMachineConfig)
    (dirName : Str) (σ : World) (ign3 : Config)
    (hd : (∃ σ0, (TempDir env σ0).2 = .ok dirName) ∨
      (Clean dirName = dirName ∧ dirName ≠ ['/'] ∧ dirName ≠ ['.']))
    (hg : (GetIgnitionConfig env w σ).2.2 = .ok ign3) :
    (∀ i f, ign3.Storage.Files.get? i = some f → hasDotDot f.Path = false →
      ∃ c, ((GetNFPMConfig env w dirName σ).2.2.1.Info.Overridables.Contents).get? i = some c ∧
        c.Source = Join [dirName, f.Path] ∧ rootedUnder dirName c.Source) ∧
    (∀ (file : File) (σ1 : World) (name data : Str) (perm : Nat),
      hasDotDot file.Path = false →
      Event.writeFile name data perm ∈ (writeIgnFileToDisk env dirName file σ1).1.trace →
      Event.writeFile name data perm ∈ σ1.trace ∨ rootedUnder dirName name) := by
  have hd1 : Clean dirName = dirName ∧ dirName ≠ ['/'] ∧ dirName ≠ ['.'] := by
    rcases hd with ⟨σ0, h0⟩ | h
    · rw [TempDir_name env σ0 dirName h0]
      exact tempName_clean env
    · exact h
  obtain ⟨hclean, hroot, hdot⟩ := hd1
  constructor
  · have hc : (GetNFPMConfig env w dirName σ).2.2.1.Info.Overridables.Contents
        = ign3.Storage.Files.map
            (fun f => { Source := Join [dirName, f.Path], Destination := f.Path }) := by
      unfold GetNFPMConfig
      rcases hg1 : GetIgnitionConfig env w σ with ⟨w1, σ1, r⟩
      rw [hg1] at hg
      simp only at hg
      subst hg
      simp [appendContents_eq]
    rw [hc]
    intro i f hf hp
    refine ⟨{ Source := Join [dirName, f.Path], Destination := f.Path }, ?_, rfl,
      Join_rootedUnder dirName f.Path hclean hroot hdot hp⟩
    simp only [List.get?_eq_getElem?, List.getElem?_map] at hf ⊢
    rw [hf]
    rfl
  · intro file σ1 name data perm hp hev
    rcases writeIgnFileToDisk_writes env dirName file σ1 name data perm hev with h | h
    · exact Or.inl h
    · right
      rw [h]
      exact Join_rootedUnder dirName file.Path hclean hroot hdot hp

theorem C2_sources_rooted_witness :
    (TempDir (demoEnv "example".toList (some [fooConf, escaping]) none none) demoWorld).2
      = .ok "/tmp/mcfg2rpm1".toList ∧
    [fooConf, escaping].get? 0 = some fooConf ∧ hasDotDot fooConf.Path = false ∧
    ∃ c, ((GetNFPMConfig (demoEnv "example".toList (some [fooConf, escaping]) none none)
        (demoWrapped "example".toList) "/tmp/mcfg2rpm1".toList
        demoWorld).2.2.1.Info.Overridables.Contents).get? 0 = some c ∧
      c.Source = Join ["/tmp/mcfg2rpm1".toList, fooConf.Path] ∧
      rootedUnder "/tmp/mcfg2rpm1".toList c.Source :=
  ⟨rfl, rfl, by decide,
   (C2_sources_rooted_without_dotdot
      (demoEnv "example".toList (some [fooConf, escaping]) none none)
      (demoWrapped "example".toList) "/tmp/mcfg2rpm1".toList demoWorld
      ⟨⟨[fooConf, escaping]⟩⟩ (Or.inl ⟨demoWorld, rfl⟩) rfl).1 0 fooConf rfl (by decide)⟩

/-- C8, counterexample: when the file at the joined path already exists with mode 0644,
`writeIgnFileToDisk` succeeds and the file holds the decoded bytes, but its mode is still
0644, not 0755. -/
theorem C8_existing_file_keeps_its_mode :
    (writeIgnFileToDisk (demoEnv "example".toList (some [nestedFile]) none none)
        "/tmp/s".toList nestedFile staleWorld).2 = none ∧
    (writeIgnFileToDisk (demoEnv "example".toList (some [nestedFile]) none none)
        "/tmp/s".toList nestedFile staleWorld).1.fs.lookup "/tmp/s/a/b/c/file".toList
      = some (.file 0o644 "hello".toList) := by
  decide

/-- C8, amended: on a well-formed filesystem, when `writeIgnFileToDisk` succeeds, every
directory on the chain from `filepath.Dir` of the joined path upward is a directory
afterwards, those that were missing having been created with mode 0755 by the `MkdirAll`
call that precedes the write; the file at the joined path exists and holds exactly the
decoded bytes of the entry (no bytes when the source is absent); and it has mode 0755 when
it did not exist beforehand, while a file that already existed keeps its mode. -/
theorem C8_ancestors_created_before_write (env : Env) (dirName : Str) (file : File)
    (σ σ1 : World) (hwf : WellFormed σ.fs)
    (hok : writeIgnFileToDisk env dirName file σ = (σ1, none)) :
    (∀ a, Ancestor a (Dir (Join [dirName, file.Path])) →
      ∃ m, σ1.fs.lookup a = some (.dir m) ∧ (σ.fs.lookup a = none → m = 0o755)) ∧
    ∃ m data mid,
      σ1.fs.lookup (Join [dirName, file.Path]) = some (.file m data) ∧
      (σ.fs.lookup (Join [dirName, file.Path]) = none → m = 0o755) ∧
      (∀ m0 d0, σ.fs.lookup (Join [dirName, file.Path]) = some (.file m0 d0) → m = m0) ∧
      (file.Contents.Source = none → data = []) ∧
      (∀ src, file.Contents.Source = some src → env.DecodeString src = .ok ⟨data⟩) ∧
      σ1.trace = σ.trace ++ (.mkdirAll (Dir (Join [dirName, file.Path])) 0o755 :: mid)
        ++ [.writeFile (Join [dirName, file.Path]) data 0o755] := by
  unfold writeIgnFileToDisk at hok
  simp only at hok
  rcases hm : MkdirAll (Dir (Join [dirName, file.Path])) 0o755 σ with ⟨σ0, r⟩
  rw [hm] at hok
  cases r with
  | some e => simp at hok
  | none =>
    simp only at hok
    have hm1 := hm
    unfold MkdirAll at hm1
    simp only [Prod.mk.injEq] at hm1
    obtain ⟨hσ0, hnone⟩ := hm1
    have hfs0 : mkdirAllAux ((Dir (Join [dirName, file.Path])).length + 1)
        (Dir (Join [dirName, file.Path])) 0o755 σ.fs = (σ0.fs, none) := by
      rw [← hσ0]; exact Prod.ext rfl hnone
    have htr0 : σ0.trace = σ.trace ++ [.mkdirAll (Dir (Join [dirName, file.Path])) 0o755] := by
      rw [← hσ0]
    obtain ⟨hanc, hframe⟩ := mkdirAllAux_ok 0o755 σ.fs hwf _ _ _ hfs0
    -- the write, on whichever world it starts from
    have fin : ∀ (σw : World) (mid : List Event) (bytes : Str),
        σw.fs = σ0.fs →
        σw.trace = σ.trace ++ (.mkdirAll (Dir (Join [dirName, file.Path])) 0o755 :: mid) →
        WriteFile (Join [dirName, file.Path]) bytes 0o755 σw = (σ1, none) →
        (∀ a, Ancestor a (Dir (Join [dirName, file.Path])) →
          ∃ m, σ1.fs.lookup a = some (.dir m) ∧ (σ.fs.lookup a = none → m = 0o755)) ∧
        ∃ m,
          σ1.fs.lookup (Join [dirName, file.Path]) = some (.file m bytes) ∧
          (σ.fs.lookup (Join [dirName, file.Path]) = none → m = 0o755) ∧
          (∀ m0 d0, σ.fs.lookup (Join [dirName, file.Path]) = some (.file m0 d0) → m = m0) ∧
          σ1.trace = σ.trace ++ (.mkdirAll (Dir (Join [dirName, file.Path])) 0o755 :: mid)
            ++ [.writeFile (Join [dirName, file.Path]) bytes 0o755] := by
      intro σw mid bytes hfsw htrw hw
      obtain ⟨m, h1, h2, h3, h4⟩ := WriteFile_ok hw
      rw [hfsw] at h1 h2 h3
      have hnotdir : ∀ md, σ0.fs.lookup (Join [dirName, file.Path]) ≠ some (.dir md) := by
        intro md hmd
        have hw1 := hw
        unfold WriteFile at hw1
        simp only [Prod.mk.injEq] at hw1
        have h5 := hw1.2
        rw [hfsw] at h5
        unfold openTruncWrite at h5
        split at h5
        · simp at h5
        · simp [hmd] at h5
      constructor
      · intro a ha
        obtain ⟨ma, hma1, hma2⟩ := hanc a ha
        refine ⟨ma, ?_, hma2⟩
        rw [h1, lookup_put]
        by_cases hfa : Join [dirName, file.Path] = a
        · subst hfa
          exact absurd hma1 (hnotdir ma)
        · rw [if_neg hfa]; exact hma1
      · refine ⟨m, by rw [h1, lookup_put]; simp, ?_, ?_, by rw [h4, htrw]⟩
        · intro hn
          apply h2
          rcases hframe (Join [dirName, file.Path]) with hq | ⟨_, hq⟩
          · rw [hq]; exact hn
          · exact absurd hq (hnotdir _)
        · intro m0 d0 hf0
          apply h3 m0 d0
          rcases hframe (Join [dirName, file.Path]) with hq | ⟨hq, _⟩
          · rw [hq]; exact hf0
          · rw [hq] at hf0; cases hf0
    cases hs : file.Contents.Source with
    | none =>
      simp only [hs] at hok
      obtain ⟨ha, m, hm2⟩ := fin σ0 [] [] rfl (by rw [htr0]) hok
      exact ⟨ha, m, [], [], hm2.1, hm2.2.1, hm2.2.2.1, fun _ => rfl, by simp, hm2.2.2.2⟩
    | some src =>
      simp only [hs] at hok
      cases hd : env.DecodeString src with
      | error e => simp [hd] at hok
      | ok contents =>
        simp only [hd] at hok
        obtain ⟨ha, m, hm2⟩ := fin (σ0.log (.decodeString src)) [.decodeString src]
          contents.Data rfl (by simp [World.log, htr0]) hok
        refine ⟨ha, m, contents.Data, [.decodeString src], hm2.1, hm2.2.1, hm2.2.2.1,
          by simp, ?_, hm2.2.2.2⟩
        intro src1 hsrc
        cases hsrc
        exact hd

theorem demoWorld_wellFormed : WellFormed demoWorld.fs := by
  intro p n h hj
  simp only [demoWorld, FS.lookup] at h
  split at h
  · subst_vars; exact absurd hj (by decide)
  · split at h
    · subst_vars; exact absurd hj (by decide)
    · split at h
      · subst_vars; exact absurd hj (by decide)
      · split at h
        · subst_vars; exact absurd hj (by decide)
        · cases h

theorem C8_ancestors_created_witness :
    (writeIgnFileToDisk (demoEnv "example".toList (some [nestedFile]) none none)
        "/tmp/mcfg2rpm1".toList nestedFile demoWorld).2 = none ∧
    demoWorld.fs.lookup "/tmp/mcfg2rpm1".toList = none ∧
    (∃ m, (writeIgnFileToDisk (demoEnv "example".toList (some [nestedFile]) none none)
        "/tmp/mcfg2rpm1".toList nestedFile demoWorld).1.fs.lookup "/tmp/mcfg2rpm1/a".toList
      = some (.dir m) ∧ (demoWorld.fs.lookup "/tmp/mcfg2rpm1/a".toList = none → m = 0o755)) :=
  ⟨by decide, by decide,
   (C8_ancestors_created_before_write
      (demoEnv "example".toList (some [nestedFile]) none none)
      "/tmp/mcfg2rpm1".toList nestedFile demoWorld
      (writeIgnFileToDisk (demoEnv "example".toList (some [nestedFile]) none none)
        "/tmp/mcfg2rpm1".toList nestedFile demoWorld).1
      demoWorld_wellFormed (by decide)).1 "/tmp/mcfg2rpm1/a".toList
      (Ancestor.up (by decide) (Ancestor.up (by decide) (Ancestor.self _)))⟩

end Mcfg2rpm
